import Mathlib

set_option maxHeartbeats 1000000

/-!
Shallow embedding of the repeat-pattern reconciliation and allele-extraction
engine of straglr (straglr/tre.py, class TREFinder), together with theorems
checking the natural-language specification against the code.

Python strings are modelled as lists of characters, Python ints as ℤ (or ℕ
where the source value is a length), and Python floats as exact rationals.
Float comparisons of the form a/b ⋈ q (a, b integers, b positive in every
reachable call) are written with the positive denominator cross-multiplied,
so that every definition evaluates by kernel reduction; bridging lemmas
restate them as the rational-division comparisons used in the theorems.
Dictionaries are modelled as association lists in insertion order.
-/

abbrev Motif := List Char

/-- Cyclic rotation of a motif: rep[i:] + rep[:i] for i = k mod len(rep). -/
def rotate (m : Motif) (k : Nat) : Motif :=
  m.drop (k % m.length) ++ m.take (k % m.length)

/-- Python substring test (p in s). -/
def isSub (p s : Motif) : Bool :=
  (List.range (s.length + 1)).any (fun i => p.isPrefixOf (s.drop i))

/-- Scanning loop of Python str.count for a non-empty pattern: at each position
    either the pattern matches (skip its length, count one) or move one character
    right. The scan consumes at least one character per step, so a fuel of
    s.length makes the recursion structural without changing the result. -/
def countOccF (p : Motif) : Nat → Motif → Nat
  | _, [] => 0
  | 0, _ :: _ => 0
  | fuel + 1, c :: rest =>
    if p.isPrefixOf (c :: rest) then 1 + countOccF p fuel ((c :: rest).drop p.length)
    else countOccF p fuel rest

/-- Python str.count: non-overlapping occurrences, scanning left to right
    (s.count(p) == len(s) + 1 when p is empty). -/
def countOcc (p s : Motif) : Nat :=
  if p = [] then s.length + 1 else countOccF p s.length s

/-- Coverage test used throughout is_same_repeat:
    count(p in s) * len(p) / len(s) >= min_fraction, cross-multiplied by the
    denominators (exact whenever s is non-empty, the only case the source
    reaches; see covOK_iff). -/
def covOK (p s : Motif) (min_fraction : ℚ) : Bool :=
  decide (min_fraction.num * s.length ≤ (countOcc p s * p.length : ℕ) * min_fraction.den)

theorem covOK_iff (p s : Motif) (mf : ℚ) (hs : 0 < s.length) :
    covOK p s mf = true ↔ mf ≤ ((countOcc p s * p.length : ℕ) : ℚ) / (s.length : ℚ) := by
  have hb : (0 : ℚ) < (s.length : ℚ) := by exact_mod_cast hs
  have hd : (0 : ℚ) < (mf.den : ℚ) := by exact_mod_cast mf.pos
  rw [covOK, decide_eq_true_iff]
  have h2 : mf ≤ ((countOcc p s * p.length : ℕ) : ℚ) / (s.length : ℚ) ↔
      (mf.num : ℚ) * (s.length : ℚ) ≤ ((countOcc p s * p.length : ℕ) : ℚ) * (mf.den : ℚ) := by
    nth_rewrite 1 [show mf = (mf.num : ℚ) / (mf.den : ℚ) from (Rat.num_div_den mf).symm]
    exact div_le_div_iff hd hb
  rw [h2]
  rw [show ((countOcc p s * p.length : ℕ) : ℚ) * (mf.den : ℚ) =
      (((countOcc p s * p.length) * mf.den : ℕ) : ℚ) by push_cast; ring]
  rw [show ((mf.num : ℚ) * (s.length : ℚ)) = ((mf.num * s.length : ℤ) : ℚ) by push_cast; ring]
  exact ⟨fun h => by exact_mod_cast h, fun h => by exact_mod_cast h⟩

/-- tre.py 192-195: rep1 is the shorter motif (the first one on a length tie). -/
def orderReps (reps : Motif × Motif) : Motif × Motif :=
  if reps.1.length ≤ reps.2.length then (reps.1, reps.2) else (reps.2, reps.1)

/-- tre.py 200-208: the rotation-containment step of is_same_repeat.
    All rotations of rep1 are tested for substring containment in rep2
    (the longer motif itself), accepting on sufficient reconstructed coverage. -/
def rotation_containment (min_fraction : ℚ) (rep1 rep2 : Motif) : Bool :=
  let perms1 := (List.range rep1.length).map (fun i => rotate rep1 i)
  perms1.any (fun p1 => isSub p1 rep2 && covOK p1 rep2 min_fraction)

/-- Modelled from the spec's words, for comparison with rotation_containment:
    substring containment of each rotation is tested in the DOUBLED longer
    motif, with reconstructed-coverage fraction
    (occurrence count * rotation length) / (longer motif's length). -/
def rotation_containment_doubled (min_fraction : ℚ) (rep1 rep2 : Motif) : Bool :=
  let perms1 := (List.range rep1.length).map (fun i => rotate rep1 i)
  perms1.any (fun p1 => isSub p1 (rep2 ++ rep2) &&
    decide (min_fraction.num * rep2.length ≤ (countOcc p1 (rep2 ++ rep2) * p1.length : ℕ) * min_fraction.den))

/-- The motif-equivalence index: dict from motif to its set of equivalent motifs. -/
abbrev SamePats := List (Motif × List Motif)

def spLookup (sp : SamePats) (m : Motif) : Option (List Motif) :=
  (sp.find? (fun e => decide (e.1 = m))).map Prod.snd

/-- tre.py 177-190: partial-containment check of rep2 against the equivalence
    set of rep1 in the index. -/
def check_same_pats (sp : SamePats) (min_fraction : ℚ) (rep1 rep2 : Motif) : Bool :=
  match spLookup sp rep1 with
  | none => false
  | some reps =>
    decide (rep2 ∈ reps) ||
    reps.any (fun rep =>
      if isSub rep2 rep then covOK rep2 rep min_fraction
      else if isSub rep rep2 then covOK rep rep2 min_fraction
      else false)

/-- Indices 0, 5, 10, ... below n (Python range(0, n, 5)). -/
def strideFive (n : Nat) : List Nat :=
  (List.range n).filter (fun i => decide (i % 5 = 0))

/-- tre.py 176-224: is_same_repeat. Early returns become a Boolean or-chain;
    the Python defaults are same_pats=None (here []) and min_fraction=0.5.
    An empty index behaves like the absent index, as in the source
    (both are falsy in the `if same_pats` guard). -/
def is_same_repeat (reps : Motif × Motif) (same_pats : SamePats) (min_fraction : ℚ) : Bool :=
  let rep1 := (orderReps reps).1
  let rep2 := (orderReps reps).2
  if rep1 = rep2 then true
  else if rotation_containment min_fraction rep1 rep2 then true
  else if same_pats ≠ [] then
    check_same_pats same_pats min_fraction reps.1 reps.2 ||
    check_same_pats same_pats min_fraction reps.2 reps.1 ||
    (strideFive reps.1.length).any (fun i =>
      check_same_pats same_pats min_fraction (rotate reps.1 i) reps.2 ||
      check_same_pats same_pats min_fraction reps.2 (rotate reps.1 i)) ||
    (strideFive reps.2.length).any (fun i =>
      check_same_pats same_pats min_fraction (rotate reps.2 i) reps.1 ||
      check_same_pats same_pats min_fraction reps.1 (rotate reps.2 i))
  else false

-- Basic lemmas about the string utilities

theorem isPrefixOf_self (l : List Char) : l.isPrefixOf l = true := by
  induction l with
  | nil => rfl
  | cons a t ih => simp [List.isPrefixOf, ih]

theorem isSub_self (l : List Char) : isSub l l = true := by
  rw [isSub, List.any_eq_true]
  refine ⟨0, ?_, ?_⟩
  · simp
  · simp [isPrefixOf_self]

theorem countOccF_nil (p : Motif) (f : Nat) : countOccF p f [] = 0 := by
  cases f <;> rfl

theorem countOcc_self (l : List Char) (h : l ≠ []) : countOcc l l = 1 := by
  match l, h with
  | c :: rest, _ =>
    rw [countOcc, if_neg (by simp)]
    show countOccF (c :: rest) (rest.length + 1) (c :: rest) = 1
    rw [countOccF, if_pos (isPrefixOf_self _)]
    have hd : ((c :: rest).drop (c :: rest).length) = ([] : List Char) := List.drop_length _
    rw [hd, countOccF_nil]

theorem rotate_length (m : Motif) (k : Nat) : (rotate m k).length = m.length := by
  rcases m with _ | ⟨c, t⟩
  · simp [rotate]
  · have h : k % (c :: t).length < (c :: t).length := Nat.mod_lt _ (by simp)
    simp [rotate, Nat.le_of_lt h]
    omega

theorem rotate_mod (m : Motif) (k : Nat) : rotate m (k % m.length) = rotate m k := by
  rcases m with _ | ⟨c, t⟩
  · simp [rotate]
  · have h : k % (c :: t).length < (c :: t).length := Nat.mod_lt _ (by simp)
    rw [rotate, rotate, Nat.mod_eq_of_lt h]

/-- C3: for any motif m and rotation amount k, same(m, rotate(m, k)) is true,
    with no equivalence index supplied (tre.py 176-224: either the equality
    check or the rotation-containment step fires). -/
theorem c3_rotation_always_same (m : Motif) (k : Nat) :
    is_same_repeat (m, rotate m k) [] (mkRat 1 2) = true := by
  rcases m with _ | ⟨c, t⟩
  · have h0 : rotate [] k = [] := by simp [rotate]
    rw [h0]
    decide
  · set m := c :: t with hm
    have hlen : (rotate m k).length = m.length := rotate_length m k
    have horder : orderReps (m, rotate m k) = (m, rotate m k) := by
      rw [orderReps, if_pos (by rw [hlen])]
    rw [is_same_repeat]
    simp only [horder]
    by_cases heq : m = rotate m k
    · rw [if_pos heq]
    · rw [if_neg heq]
      have hrc : rotation_containment (mkRat 1 2) m (rotate m k) = true := by
        rw [rotation_containment]
        simp only [List.any_eq_true, List.mem_map, List.mem_range]
        refine ⟨rotate m (k % m.length), ⟨k % m.length, Nat.mod_lt _ (by simp [hm]), rfl⟩, ?_⟩
        rw [rotate_mod]
        rw [Bool.and_eq_true]
        constructor
        · exact isSub_self _
        · have hne : rotate m k ≠ [] := by
            intro habs
            have := rotate_length m k
            rw [habs] at this
            simp [hm] at this
          rw [covOK, decide_eq_true_iff, countOcc_self _ hne]
          rw [show (mkRat 1 2).num = 1 from by decide, show (mkRat 1 2).den = 2 from by decide]
          push_cast
          omega
      rw [hrc]
      simp

/-- C2 counterexample: for the unequal motifs m1 = "AT", m2 = "TCA", the rotation
    "AT" of the shorter motif occurs in the doubled longer motif "TCATCA" with
    reconstructed-coverage fraction 1*2/3 ≥ 0.5, yet the code's rotation-containment
    step rejects (it tests containment in the longer motif itself, never doubled). -/
theorem c2_counterexample :
    "AT".toList ≠ "TCA".toList ∧
    rotation_containment (mkRat 1 2) (orderReps ("AT".toList, "TCA".toList)).1
      (orderReps ("AT".toList, "TCA".toList)).2 = false ∧
    rotation_containment_doubled (mkRat 1 2) (orderReps ("AT".toList, "TCA".toList)).1
      (orderReps ("AT".toList, "TCA".toList)).2 = true := by
  refine ⟨by decide, by decide, by decide⟩

/-- C2 (amended): the rotation-containment step accepts exactly when some cyclic
    rotation of the shorter motif occurs as a substring of the LONGER MOTIF ITSELF
    (not doubled), with a reconstructed-coverage fraction (non-overlapping occurrence
    count times rotation length, divided by the longer motif's length) of at least 0.5. -/
theorem c2_amended (m1 m2 : Motif) :
    rotation_containment (mkRat 1 2) (orderReps (m1, m2)).1 (orderReps (m1, m2)).2 = true ↔
    ∃ i < (orderReps (m1, m2)).1.length,
      isSub (rotate (orderReps (m1, m2)).1 i) (orderReps (m1, m2)).2 = true ∧
      (mkRat 1 2 : ℚ) ≤ ((countOcc (rotate (orderReps (m1, m2)).1 i) (orderReps (m1, m2)).2 *
          (rotate (orderReps (m1, m2)).1 i).length : ℕ) : ℚ) /
        (((orderReps (m1, m2)).2.length : ℕ) : ℚ) := by
  have hlen2 : ∀ i, i < (orderReps (m1, m2)).1.length → 0 < (orderReps (m1, m2)).2.length := by
    have h12 : (orderReps (m1, m2)).1.length ≤ (orderReps (m1, m2)).2.length := by
      rw [orderReps]
      by_cases h : (m1, m2).1.length ≤ (m1, m2).2.length
      · rw [if_pos h]
        exact h
      · rw [if_neg h]
        exact le_of_lt (lt_of_not_le h)
    intro i hi
    omega
  rw [rotation_containment]
  simp only [List.any_eq_true, List.mem_map, List.mem_range, Bool.and_eq_true]
  constructor
  · rintro ⟨p, ⟨i, hi, rfl⟩, hsub, hcov⟩
    exact ⟨i, hi, hsub, (covOK_iff _ _ _ (hlen2 i hi)).mp hcov⟩
  · rintro ⟨i, hi, hsub, hcov⟩
    exact ⟨rotate (orderReps (m1, m2)).1 i, ⟨i, hi, rfl⟩, hsub,
      (covOK_iff _ _ _ (hlen2 i hi)).mpr hcov⟩

-- Coordinate reconciliation (tre.py 226-242 plus helpers from straglr.utils)

abbrev Span := ℤ × ℤ

/-- Sort order used when merging spans: by start, then by end. -/
def spanLe (a b : Span) : Prop := a.1 < b.1 ∨ (a.1 = b.1 ∧ a.2 ≤ b.2)

instance : DecidableRel spanLe := fun _ _ => inferInstanceAs (Decidable (_ ∨ _))

instance : IsTotal Span spanLe where
  total a b := by
    rcases lt_trichotomy a.1 b.1 with h | h | h
    · exact Or.inl (Or.inl h)
    · rcases le_total a.2 b.2 with h2 | h2
      · exact Or.inl (Or.inr ⟨h, h2⟩)
      · exact Or.inr (Or.inr ⟨h.symm, h2⟩)
    · exact Or.inr (Or.inl h)

instance : IsTrans Span spanLe where
  trans a b c hab hbc := by
    rcases hab with h | ⟨h, h2⟩ <;> rcases hbc with h' | ⟨h', h2'⟩
    · exact Or.inl (lt_trans h h')
    · exact Or.inl (by omega)
    · exact Or.inl (by omega)
    · exact Or.inr ⟨by omega, le_trans h2 h2'⟩

instance : IsAntisymm Span spanLe where
  antisymm a b hab hba := by
    rcases hab with h | ⟨h, h2⟩ <;> rcases hba with h' | ⟨h', h2'⟩ <;>
      [skip; skip; skip; exact Prod.ext (by omega) (le_antisymm h2 h2')] <;> omega

/-- Modelled from the spec: merge_spans from straglr.utils (code not under src/) —
    "Merge overlapping/adjacent intervals into maximal spans". Fold over the
    sorted spans, absorbing the next span into the current one when its start
    is at most current end + 1 (overlap or adjacency), keeping the larger end. -/
def mergeInto (a : Span) : List Span → List Span
  | [] => [a]
  | b :: rest =>
    if b.1 ≤ a.2 + 1 then mergeInto (a.1, max a.2 b.2) rest else a :: mergeInto b rest

/-- Modelled from the spec: merge_spans sorts its input and merges
    overlapping/adjacent spans into maximal spans. -/
def merge_spans (l : List Span) : List Span :=
  match List.insertionSort spanLe l with
  | [] => []
  | a :: rest => mergeInto a rest

/-- Modelled from the spec: complement_spans from straglr.utils (code not under
    src/) — "Compute gaps between consecutive merged spans": consecutive spans
    (a,b), (c,d) produce the gap (b+1, c-1). -/
def complement_spans (l : List Span) : List Span :=
  List.zipWith (fun a b => (a.2 + 1, b.1 - 1)) l l.tail

/-- tre.py 226-242: combine_trf_coords — drop spans wholly outside the buffered
    flank bounds, merge, fill gaps of size at most max_sep, and re-merge
    (Python defaults buf=20, max_sep=50). -/
def combine_trf_coords (coords : List Span) (bounds : Span) (buf max_sep : ℤ) : List Span :=
  let coords2 := coords.filter
    (fun c => !(decide (c.2 < bounds.1 - buf) || decide (c.1 > bounds.2 + buf)))
  if coords2.isEmpty then []
  else
    let merged_list := merge_spans coords2
    let gap_list := complement_spans merged_list
    let gaps_filled := gap_list.filter (fun g => decide (g.2 - g.1 + 1 ≤ max_sep))
    merge_spans (merged_list ++ gaps_filled)

/-- Gap filling fused with merging: the normal form combine_trf_coords computes
    on an already merged list (used only in the proofs below). -/
def fillInto (ms : ℤ) (a : Span) : List Span → List Span
  | [] => [a]
  | b :: rest =>
    if b.1 - a.2 - 1 ≤ ms then fillInto ms (a.1, b.2) rest else a :: fillInto ms b rest

def WfSpans (l : List Span) : Prop := ∀ c ∈ l, c.1 ≤ c.2

/-- Consecutive spans are separated (a genuine gap of size ≥ 1 lies between). -/
def sepR (a b : Span) : Prop := a.2 + 1 < b.1

/-- Consecutive spans are separated by a gap of size > ms and ≥ 1. -/
def sepBoth (ms : ℤ) (a b : Span) : Prop := a.2 + 1 < b.1 ∧ a.2 + 1 + ms < b.1

def PassB (lo hi : ℤ) (l : List Span) : Prop := ∀ c ∈ l, lo ≤ c.2 ∧ c.1 ≤ hi

theorem complement_spans_cons2 (a b : Span) (t : List Span) :
    complement_spans (a :: b :: t) = (a.2 + 1, b.1 - 1) :: complement_spans (b :: t) := rfl

theorem complement_spans_snd (p p' q : ℤ) (t : List Span) :
    complement_spans ((p, q) :: t) = complement_spans ((p', q) :: t) := by
  cases t <;> rfl

theorem complement_mem {l : List Span} {g : Span} (h : g ∈ complement_spans l) :
    ∃ x ∈ l, g.1 = x.2 + 1 := by
  induction l with
  | nil => simp [complement_spans] at h
  | cons a t ih =>
    cases t with
    | nil => simp [complement_spans] at h
    | cons b t' =>
      rw [complement_spans_cons2] at h
      rcases List.mem_cons.mp h with h0 | h0
      · exact ⟨a, List.mem_cons_self _ _, by rw [h0]⟩
      · obtain ⟨x, hx, hg⟩ := ih h0
        exact ⟨x, List.mem_cons_of_mem _ hx, hg⟩

theorem chain_rel_all {x : Span} {t : List Span} (hw : WfSpans (x :: t))
    (hc : List.Chain' sepR (x :: t)) : ∀ y ∈ t, sepR x y := by
  induction t generalizing x with
  | nil => simp
  | cons c t' ih =>
    intro y hy
    have hxc : sepR x c := (List.chain'_cons.mp hc).1
    rcases List.mem_cons.mp hy with rfl | hy'
    · exact hxc
    · have hwc : WfSpans (c :: t') := by
        intro z hz
        exact hw z (List.mem_cons_of_mem _ hz)
      have hcy : sepR c y := ih hwc (List.chain'_cons.mp hc).2 y hy'
      have hcwf : c.1 ≤ c.2 := hw c (List.mem_cons_of_mem _ (List.mem_cons_self _ _))
      unfold sepR at *
      omega

theorem chain_pairwise {l : List Span} (hw : WfSpans l) (hc : List.Chain' sepR l) :
    List.Pairwise sepR l := by
  induction l with
  | nil => exact List.Pairwise.nil
  | cons x t ih =>
    refine List.pairwise_cons.mpr ⟨chain_rel_all hw hc, ?_⟩
    exact ih (fun c hcm => hw c (List.mem_cons_of_mem _ hcm)) (List.Chain'.tail hc)

theorem spanLe_of_fst_lt {a b : Span} (h : a.1 < b.1) : spanLe a b := Or.inl h

theorem chain_sepR_sorted {l : List Span} (hw : WfSpans l) (hc : List.Chain' sepR l) :
    List.Sorted spanLe l := by
  refine (chain_pairwise hw hc).imp_of_mem ?_
  intro a b ha _ hab
  refine spanLe_of_fst_lt ?_
  have : a.1 ≤ a.2 := hw a ha
  unfold sepR at hab
  omega

-- mergeInto lemmas

theorem mergeInto_cons (a b : Span) (t : List Span) :
    mergeInto a (b :: t) =
      if b.1 ≤ a.2 + 1 then mergeInto (a.1, max a.2 b.2) t else a :: mergeInto b t := rfl

theorem mergeInto_head (a : Span) (l : List Span) :
    ∃ e t, mergeInto a l = (a.1, e) :: t ∧ a.2 ≤ e := by
  induction l generalizing a with
  | nil => exact ⟨a.2, [], rfl, le_refl _⟩
  | cons b rest ih =>
    rw [mergeInto_cons]
    by_cases h : b.1 ≤ a.2 + 1
    · rw [if_pos h]
      obtain ⟨e, t, heq, hle⟩ := ih (a.1, max a.2 b.2)
      exact ⟨e, t, heq, le_trans (le_max_left _ _) hle⟩
    · rw [if_neg h]
      exact ⟨a.2, mergeInto b rest, rfl, le_refl _⟩

theorem mergeInto_wf {a : Span} {l : List Span} (hw : WfSpans (a :: l)) :
    WfSpans (mergeInto a l) := by
  induction l generalizing a with
  | nil =>
    intro c hcm
    rcases List.mem_singleton.mp hcm with rfl
    exact hw c (List.mem_cons_self _ _)
  | cons b rest ih =>
    rw [mergeInto_cons]
    have ha : a.1 ≤ a.2 := hw a (List.mem_cons_self _ _)
    by_cases h : b.1 ≤ a.2 + 1
    · rw [if_pos h]
      refine ih ?_
      intro c hcm
      rcases List.mem_cons.mp hcm with rfl | hcm'
      · exact le_trans ha (le_max_left _ _)
      · exact hw c (List.mem_cons_of_mem _ (List.mem_cons_of_mem _ hcm'))
    · rw [if_neg h]
      intro c hcm
      rcases List.mem_cons.mp hcm with rfl | hcm'
      · exact ha
      · exact ih (fun z hz => hw z (List.mem_cons_of_mem _ hz)) c hcm'

theorem mergeInto_pass {lo hi : ℤ} {a : Span} {l : List Span} (hp : PassB lo hi (a :: l)) :
    PassB lo hi (mergeInto a l) := by
  induction l generalizing a with
  | nil =>
    intro c hcm
    rcases List.mem_singleton.mp hcm with rfl
    exact hp c (List.mem_cons_self _ _)
  | cons b rest ih =>
    rw [mergeInto_cons]
    have ha := hp a (List.mem_cons_self _ _)
    by_cases h : b.1 ≤ a.2 + 1
    · rw [if_pos h]
      refine ih ?_
      intro c hcm
      rcases List.mem_cons.mp hcm with rfl | hcm'
      · exact ⟨le_trans ha.1 (le_max_left _ _), ha.2⟩
      · exact hp c (List.mem_cons_of_mem _ (List.mem_cons_of_mem _ hcm'))
    · rw [if_neg h]
      intro c hcm
      rcases List.mem_cons.mp hcm with rfl | hcm'
      · exact ha
      · exact ih (fun z hz => hp z (List.mem_cons_of_mem _ hz)) c hcm'

/-- On a list sorted by start, mergeInto produces separated spans. -/
theorem mergeInto_chain {a : Span} {l : List Span}
    (hs : List.Pairwise (fun x y : Span => x.1 ≤ y.1) (a :: l)) :
    List.Chain' sepR (mergeInto a l) := by
  induction l generalizing a with
  | nil => simp [mergeInto]
  | cons b rest ih =>
    rw [mergeInto_cons]
    obtain ⟨hhead, htail⟩ := List.pairwise_cons.mp hs
    by_cases h : b.1 ≤ a.2 + 1
    · rw [if_pos h]
      refine ih ?_
      refine List.pairwise_cons.mpr ⟨?_, (List.pairwise_cons.mp htail).2⟩
      intro y hy
      exact hhead y (List.mem_cons_of_mem _ hy)
    · rw [if_neg h]
      obtain ⟨e, t, heq, _⟩ := mergeInto_head b rest
      rw [heq]
      refine List.chain'_cons.mpr ⟨?_, ?_⟩
      · show a.2 + 1 < b.1
        omega
      · rw [← heq]
        exact ih htail

/-- mergeInto leaves an already separated list unchanged. -/
theorem mergeInto_id {a : Span} {l : List Span} (hc : List.Chain' sepR (a :: l)) :
    mergeInto a l = a :: l := by
  induction l generalizing a with
  | nil => rfl
  | cons b rest ih =>
    rw [mergeInto_cons]
    have hab : sepR a b := (List.chain'_cons.mp hc).1
    rw [if_neg (by unfold sepR at hab; omega)]
    rw [ih (List.chain'_cons.mp hc).2]

-- fillInto lemmas

theorem fillInto_cons (ms : ℤ) (a b : Span) (t : List Span) :
    fillInto ms a (b :: t) =
      if b.1 - a.2 - 1 ≤ ms then fillInto ms (a.1, b.2) t else a :: fillInto ms b t := rfl

theorem fillInto_head (ms : ℤ) (a : Span) (l : List Span) :
    ∃ e t, fillInto ms a l = (a.1, e) :: t := by
  induction l generalizing a with
  | nil => exact ⟨a.2, [], rfl⟩
  | cons b rest ih =>
    rw [fillInto_cons]
    by_cases h : b.1 - a.2 - 1 ≤ ms
    · rw [if_pos h]
      exact ih (a.1, b.2)
    · rw [if_neg h]
      exact ⟨a.2, fillInto ms b rest, rfl⟩

theorem fillInto_chain_aux {ms : ℤ} : ∀ {l : List Span} {a : Span}, WfSpans (a :: l) →
    List.Chain' sepR (a :: l) →
    WfSpans (fillInto ms a l) ∧ List.Chain' (sepBoth ms) (fillInto ms a l) := by
  intro l
  induction l with
  | nil =>
    intro a hw _
    constructor
    · intro c hcm
      rcases List.mem_singleton.mp hcm with rfl
      exact hw c (List.mem_cons_self _ _)
    · simp [fillInto]
  | cons b rest ih =>
    intro a hw hc
    have hwa : a.1 ≤ a.2 := hw a (List.mem_cons_self _ _)
    have hwb : b.1 ≤ b.2 := hw b (List.mem_cons_of_mem _ (List.mem_cons_self _ _))
    have hab : sepR a b := (List.chain'_cons.mp hc).1
    have hctail : List.Chain' sepR (b :: rest) := (List.chain'_cons.mp hc).2
    rw [fillInto_cons]
    by_cases h : b.1 - a.2 - 1 ≤ ms
    · rw [if_pos h]
      refine ih ?_ ?_
      · intro c hcm
        rcases List.mem_cons.mp hcm with rfl | hcm'
        · show a.1 ≤ b.2
          unfold sepR at hab
          omega
        · exact hw c (List.mem_cons_of_mem _ (List.mem_cons_of_mem _ hcm'))
      · refine List.chain'_cons'.mpr ⟨?_, (List.chain'_cons'.mp hctail).2⟩
        intro y hy
        have := (List.chain'_cons'.mp hctail).1 y hy
        exact this
    · rw [if_neg h]
      obtain ⟨hwf', hch'⟩ := ih (a := b)
        (fun z hz => hw z (List.mem_cons_of_mem _ hz)) hctail
      constructor
      · intro c hcm
        rcases List.mem_cons.mp hcm with rfl | hcm'
        · exact hwa
        · exact hwf' c hcm'
      · obtain ⟨e, t, heq⟩ := fillInto_head ms b rest
        rw [heq]
        refine List.chain'_cons.mpr ⟨?_, ?_⟩
        · constructor
          · show a.2 + 1 < b.1
            unfold sepR at hab
            omega
          · show a.2 + 1 + ms < b.1
            omega
        · rw [← heq]
          exact hch'

theorem fillInto_pass {ms lo hi : ℤ} : ∀ {l : List Span} {a : Span}, PassB lo hi (a :: l) →
    PassB lo hi (fillInto ms a l) := by
  intro l
  induction l with
  | nil =>
    intro a hp c hcm
    rcases List.mem_singleton.mp hcm with rfl
    exact hp c (List.mem_cons_self _ _)
  | cons b rest ih =>
    intro a hp
    have ha := hp a (List.mem_cons_self _ _)
    have hb := hp b (List.mem_cons_of_mem _ (List.mem_cons_self _ _))
    rw [fillInto_cons]
    by_cases h : b.1 - a.2 - 1 ≤ ms
    · rw [if_pos h]
      refine ih ?_
      intro c hcm
      rcases List.mem_cons.mp hcm with rfl | hcm'
      · exact ⟨hb.1, ha.2⟩
      · exact hp c (List.mem_cons_of_mem _ (List.mem_cons_of_mem _ hcm'))
    · rw [if_neg h]
      intro c hcm
      rcases List.mem_cons.mp hcm with rfl | hcm'
      · exact ha
      · exact ih (fun z hz => hp z (List.mem_cons_of_mem _ hz)) c hcm'

-- Sorted-list identification helpers

theorem sort_eq_of_sorted {X E : List Span} (hperm : X.Perm E) (hsorted : List.Sorted spanLe E) :
    List.insertionSort spanLe X = E :=
  List.eq_of_perm_of_sorted ((List.perm_insertionSort spanLe X).trans hperm)
    (List.sorted_insertionSort spanLe X) hsorted

theorem merge_spans_of_sort_eq {X : List Span} {a : Span} {rest : List Span}
    (h : List.insertionSort spanLe X = a :: rest) : merge_spans X = mergeInto a rest := by
  unfold merge_spans
  rw [h]

theorem after_head {ms : ℤ} {b : Span} {rest : List Span}
    (hw : WfSpans (b :: rest)) (hc : List.Chain' sepR (b :: rest)) :
    ∀ x ∈ rest ++ (complement_spans (b :: rest)).filter (fun g => decide (g.2 - g.1 + 1 ≤ ms)),
      b.2 + 1 ≤ x.1 := by
  intro x hx
  have hwb : b.1 ≤ b.2 := hw b (List.mem_cons_self _ _)
  rcases List.mem_append.mp hx with hx' | hx'
  · have := chain_rel_all hw hc x hx'
    unfold sepR at this
    omega
  · obtain ⟨y, hy, hg⟩ := complement_mem (List.mem_of_mem_filter hx')
    rcases List.mem_cons.mp hy with rfl | hy'
    · omega
    · have hby := chain_rel_all hw hc y hy'
      have hyw : y.1 ≤ y.2 := hw y (List.mem_cons_of_mem _ hy')
      unfold sepR at hby
      omega

/-- Core normal-form lemma: on a merged (well-formed, separated) list,
    gap-filling followed by re-merging computes the fused fillInto fold. -/
theorem fill_eq (ms : ℤ) : ∀ (l : List Span) (a : Span), WfSpans (a :: l) →
    List.Chain' sepR (a :: l) →
    merge_spans ((a :: l) ++
        (complement_spans (a :: l)).filter (fun g => decide (g.2 - g.1 + 1 ≤ ms)))
      = fillInto ms a l := by
  intro l
  induction l with
  | nil =>
    intro a _ _
    rfl
  | cons b rest ih =>
    intro a hw hc
    have hwa : a.1 ≤ a.2 := hw a (List.mem_cons_self _ _)
    have hwb : b.1 ≤ b.2 := hw b (List.mem_cons_of_mem _ (List.mem_cons_self _ _))
    have hab : sepR a b := (List.chain'_cons.mp hc).1
    have hab' : a.2 + 1 < b.1 := hab
    have hwtail : WfSpans (b :: rest) := fun z hz => hw z (List.mem_cons_of_mem _ hz)
    have hctail : List.Chain' sepR (b :: rest) := (List.chain'_cons.mp hc).2
    set F := (complement_spans (b :: rest)).filter (fun g => decide (g.2 - g.1 + 1 ≤ ms)) with hF
    set S := List.insertionSort spanLe (rest ++ F) with hS
    have hSsorted : List.Sorted spanLe S := List.sorted_insertionSort _ _
    have hSperm : S.Perm (rest ++ F) := List.perm_insertionSort _ _
    have hxboundRF : ∀ x ∈ rest ++ F, b.2 + 1 ≤ x.1 := after_head hwtail hctail
    have hxbound : ∀ x ∈ S, b.2 + 1 ≤ x.1 := fun x hx => hxboundRF x (hSperm.mem_iff.mp hx)
    have hcomp : complement_spans (a :: b :: rest)
        = (a.2 + 1, b.1 - 1) :: complement_spans (b :: rest) := rfl
    by_cases hfill : b.1 - a.2 - 1 ≤ ms
    · -- the gap between a and b is filled
      have hgfilter : (complement_spans (a :: b :: rest)).filter
          (fun g => decide (g.2 - g.1 + 1 ≤ ms)) = (a.2 + 1, b.1 - 1) :: F := by
        rw [hcomp, List.filter_cons, if_pos (by
          rw [decide_eq_true_iff]
          show b.1 - 1 - (a.2 + 1) + 1 ≤ ms
          omega)]
      rw [hgfilter]
      -- identify the sorted form of the re-merge input
      have hsortX : List.insertionSort spanLe
          ((a :: b :: rest) ++ ((a.2 + 1, b.1 - 1) :: F))
          = a :: (a.2 + 1, b.1 - 1) :: b :: S := by
        apply sort_eq_of_sorted
        · have p1 : (rest ++ ((a.2 + 1, b.1 - 1) :: F)).Perm ((a.2 + 1, b.1 - 1) :: (rest ++ F)) :=
            List.perm_middle
          have p3 : (b :: (a.2 + 1, b.1 - 1) :: (rest ++ F)).Perm
              ((a.2 + 1, b.1 - 1) :: b :: (rest ++ F)) := List.Perm.swap _ _ _
          have p4 : (b :: (a.2 + 1, b.1 - 1) :: (rest ++ F)).Perm
              ((a.2 + 1, b.1 - 1) :: b :: S) := p3.trans ((hSperm.symm.cons b).cons _)
          have heq : (a :: b :: rest) ++ ((a.2 + 1, b.1 - 1) :: F)
              = a :: b :: (rest ++ ((a.2 + 1, b.1 - 1) :: F)) := by simp
          rw [heq]
          exact ((p1.cons b).cons a).trans (p4.cons a)
        · refine List.sorted_cons.mpr ⟨?_, List.sorted_cons.mpr ⟨?_,
            List.sorted_cons.mpr ⟨?_, hSsorted⟩⟩⟩
          · intro x hx
            rcases List.mem_cons.mp hx with rfl | hx
            · exact spanLe_of_fst_lt (by simp; omega)
            · rcases List.mem_cons.mp hx with rfl | hx
              · exact spanLe_of_fst_lt (by omega)
              · have := hxbound x hx
                exact spanLe_of_fst_lt (by omega)
          · intro x hx
            rcases List.mem_cons.mp hx with rfl | hx
            · exact spanLe_of_fst_lt (by simp; omega)
            · have := hxbound x hx
              exact spanLe_of_fst_lt (by simp; omega)
          · intro x hx
            have := hxbound x hx
            exact spanLe_of_fst_lt (by omega)
      have hmerge1 : merge_spans ((a :: b :: rest) ++ ((a.2 + 1, b.1 - 1) :: F))
          = mergeInto (a.1, b.2) S := by
        rw [merge_spans_of_sort_eq hsortX]
        rw [mergeInto_cons]
        rw [if_pos (le_refl _)]
        have e1 : ((a.1, max a.2 ((a.2 + 1, b.1 - 1) : Span).2) : Span) = (a.1, b.1 - 1) := by
          show ((a.1, max a.2 (b.1 - 1)) : Span) = (a.1, b.1 - 1)
          have hmax : max a.2 (b.1 - 1) = b.1 - 1 := by omega
          rw [hmax]
        rw [e1, mergeInto_cons]
        rw [if_pos (by show b.1 ≤ (b.1 - 1) + 1; omega)]
        have e2 : ((((a.1 : ℤ), (b.1 - 1 : ℤ)) : Span).1, max (((a.1 : ℤ), (b.1 - 1 : ℤ)) : Span).2 b.2) = ((a.1 : ℤ), b.2) := by
          show ((a.1, max (b.1 - 1) b.2) : Span) = ((a.1 : ℤ), b.2)
          have hmax : max (b.1 - 1) b.2 = b.2 := by omega
          rw [hmax]
        rw [e2]
      -- the right-hand side is fillInto at the absorbed head
      have hrhs : fillInto ms a (b :: rest) = fillInto ms (a.1, b.2) rest := by
        rw [fillInto_cons, if_pos hfill]
      -- the IH at the absorbed head
      have hcompF : (complement_spans (((a.1 : ℤ), b.2) :: rest)).filter
          (fun g => decide (g.2 - g.1 + 1 ≤ ms)) = F := by
        rw [hF]
        have : complement_spans (((a.1 : ℤ), b.2) :: rest) = complement_spans (b :: rest) := by
          have h1 := complement_spans_snd a.1 b.1 b.2 rest
          rw [h1]
        rw [this]
      have hwabs : WfSpans (((a.1 : ℤ), b.2) :: rest) := by
        intro c hcm
        rcases List.mem_cons.mp hcm with rfl | hcm'
        · show a.1 ≤ b.2
          omega
        · exact hwtail c (List.mem_cons_of_mem _ hcm')
      have hcabs : List.Chain' sepR (((a.1 : ℤ), b.2) :: rest) := by
        refine List.chain'_cons'.mpr ⟨?_, (List.chain'_cons'.mp hctail).2⟩
        intro y hy
        exact (List.chain'_cons'.mp hctail).1 y hy
      have hIH := ih ((a.1 : ℤ), b.2) hwabs hcabs
      rw [hcompF] at hIH
      -- identify the sorted form of the IH's re-merge input
      have hsortY : List.insertionSort spanLe ((((a.1 : ℤ), b.2) :: rest) ++ F)
          = ((a.1 : ℤ), b.2) :: S := by
        apply sort_eq_of_sorted
        · rw [show (((a.1 : ℤ), b.2) :: rest) ++ F = ((a.1 : ℤ), b.2) :: (rest ++ F) from rfl]
          exact hSperm.symm.cons _
        · refine List.sorted_cons.mpr ⟨?_, hSsorted⟩
          intro x hx
          have := hxbound x hx
          exact spanLe_of_fst_lt (by simp; omega)
      rw [merge_spans_of_sort_eq hsortY] at hIH
      rw [hrhs, ← hIH, hmerge1]
    · -- the gap between a and b is not filled
      have hgfilter : (complement_spans (a :: b :: rest)).filter
          (fun g => decide (g.2 - g.1 + 1 ≤ ms)) = F := by
        rw [hcomp, List.filter_cons, if_neg (by
          rw [decide_eq_true_iff]
          show ¬(b.1 - 1 - (a.2 + 1) + 1 ≤ ms)
          omega)]
      rw [hgfilter]
      have hsortX : List.insertionSort spanLe ((a :: b :: rest) ++ F) = a :: b :: S := by
        apply sort_eq_of_sorted
        · have heq : (a :: b :: rest) ++ F = a :: b :: (rest ++ F) := by simp
          rw [heq]
          exact (hSperm.symm.cons b).cons a
        · refine List.sorted_cons.mpr ⟨?_, List.sorted_cons.mpr ⟨?_, hSsorted⟩⟩
          · intro x hx
            rcases List.mem_cons.mp hx with rfl | hx
            · exact spanLe_of_fst_lt (by omega)
            · have := hxbound x hx
              exact spanLe_of_fst_lt (by omega)
          · intro x hx
            have := hxbound x hx
            exact spanLe_of_fst_lt (by omega)
      have hsortY : List.insertionSort spanLe ((b :: rest) ++ F) = b :: S := by
        apply sort_eq_of_sorted
        · rw [show (b :: rest) ++ F = b :: (rest ++ F) from rfl]
          exact hSperm.symm.cons b
        · refine List.sorted_cons.mpr ⟨?_, hSsorted⟩
          intro x hx
          have := hxbound x hx
          exact spanLe_of_fst_lt (by omega)
      have hIH := ih b hwtail hctail
      rw [← hF] at hIH
      rw [merge_spans_of_sort_eq hsortY] at hIH
      rw [merge_spans_of_sort_eq hsortX]
      rw [mergeInto_cons, if_neg (by omega)]
      rw [hIH]
      rw [fillInto_cons, if_neg hfill]

theorem sorted_le1 {l : List Span} (hs : List.Sorted spanLe l) :
    List.Pairwise (fun x y : Span => x.1 ≤ y.1) l := by
  refine hs.imp ?_
  intro a b hab
  rcases hab with h | ⟨h, _⟩ <;> omega

/-- Zeta-reduced form of combine_trf_coords, for rewriting. -/
theorem combine_eval (coords : List Span) (bounds : Span) (buf ms : ℤ) :
    combine_trf_coords coords bounds buf ms =
      if (coords.filter
          (fun c => !(decide (c.2 < bounds.1 - buf) || decide (c.1 > bounds.2 + buf)))).isEmpty
      then []
      else
        merge_spans
          (merge_spans (coords.filter
              (fun c => !(decide (c.2 < bounds.1 - buf) || decide (c.1 > bounds.2 + buf)))) ++
            (complement_spans (merge_spans (coords.filter
              (fun c => !(decide (c.2 < bounds.1 - buf) || decide (c.1 > bounds.2 + buf)))))).filter
              (fun g => decide (g.2 - g.1 + 1 ≤ ms))) := rfl

theorem merge_spans_props {l : List Span} {lo hi : ℤ} (hw : WfSpans l) (hp : PassB lo hi l) :
    WfSpans (merge_spans l) ∧ List.Chain' sepR (merge_spans l) ∧ PassB lo hi (merge_spans l) := by
  unfold merge_spans
  cases hsort : List.insertionSort spanLe l with
  | nil =>
    refine ⟨?_, List.chain'_nil, ?_⟩ <;> intro c hcm <;> simp at hcm
  | cons a t =>
    have hmem : ∀ x ∈ a :: t, x ∈ l := by
      intro x hx
      have := (List.mem_insertionSort spanLe (l := l)).mp (by rw [hsort]; exact hx)
      exact this
    have hw' : WfSpans (a :: t) := fun c hcm => hw c (hmem c hcm)
    have hp' : PassB lo hi (a :: t) := fun c hcm => hp c (hmem c hcm)
    have hsorted : List.Sorted spanLe (a :: t) := by
      rw [← hsort]
      exact List.sorted_insertionSort spanLe l
    exact ⟨mergeInto_wf hw', mergeInto_chain (sorted_le1 hsorted), mergeInto_pass hp'⟩

theorem complement_far {ms : ℤ} : ∀ {l : List Span}, List.Chain' (sepBoth ms) l →
    ∀ g ∈ complement_spans l, ¬(g.2 - g.1 + 1 ≤ ms) := by
  intro l
  induction l with
  | nil => simp [complement_spans]
  | cons a t ih =>
    intro hc g hg
    cases t with
    | nil => simp [complement_spans] at hg
    | cons b t' =>
      rw [complement_spans_cons2] at hg
      rcases List.mem_cons.mp hg with rfl | hg'
      · have hab : sepBoth ms a b := (List.chain'_cons.mp hc).1
        obtain ⟨h1, h2⟩ := hab
        show ¬(b.1 - 1 - (a.2 + 1) + 1 ≤ ms)
        omega
      · exact ih (List.chain'_cons.mp hc).2 g hg'

/-- combine_trf_coords leaves any well-formed, widely separated, in-bounds list
    unchanged. -/
theorem combine_fixed {bounds : Span} {buf ms : ℤ} {l : List Span}
    (hw : WfSpans l) (hc : List.Chain' (sepBoth ms) l)
    (hp : PassB (bounds.1 - buf) (bounds.2 + buf) l) :
    combine_trf_coords l bounds buf ms = l := by
  have hcR : List.Chain' sepR l := hc.imp (fun _ _ hab => hab.1)
  have hfilt : l.filter
      (fun c => !(decide (c.2 < bounds.1 - buf) || decide (c.1 > bounds.2 + buf))) = l := by
    rw [List.filter_eq_self]
    intro c hcm
    obtain ⟨h1, h2⟩ := hp c hcm
    simp only [Bool.not_eq_true', Bool.or_eq_false_iff, decide_eq_false_iff_not]
    constructor <;> omega
  rw [combine_eval, hfilt]
  cases l with
  | nil => rfl
  | cons a t =>
    rw [if_neg (by simp)]
    have hsorted : List.Sorted spanLe (a :: t) := chain_sepR_sorted hw hcR
    have hsort_eq : List.insertionSort spanLe (a :: t) = a :: t :=
      List.Sorted.insertionSort_eq hsorted
    have hmerge : merge_spans (a :: t) = a :: t := by
      rw [merge_spans_of_sort_eq hsort_eq]
      exact mergeInto_id hcR
    rw [hmerge]
    have hgaps : (complement_spans (a :: t)).filter (fun g => decide (g.2 - g.1 + 1 ≤ ms)) = [] := by
      rw [List.filter_eq_nil_iff]
      intro g hg
      simp only [decide_eq_true_iff]
      exact complement_far hc g hg
    rw [hgaps, List.append_nil, hmerge]

/-- The output of combine_trf_coords is well formed, separated by more than
    max_sep, and within the buffered bounds. -/
theorem combine_props (coords : List Span) (bounds : Span) (buf ms : ℤ) (hwf : WfSpans coords) :
    WfSpans (combine_trf_coords coords bounds buf ms) ∧
    List.Chain' (sepBoth ms) (combine_trf_coords coords bounds buf ms) ∧
    PassB (bounds.1 - buf) (bounds.2 + buf) (combine_trf_coords coords bounds buf ms) := by
  rw [combine_eval]
  set pred : Span → Bool :=
    fun c => !(decide (c.2 < bounds.1 - buf) || decide (c.1 > bounds.2 + buf)) with hpred
  by_cases hempty : (coords.filter pred).isEmpty
  · rw [if_pos hempty]
    refine ⟨?_, List.chain'_nil, ?_⟩ <;> intro c hcm <;> simp at hcm
  · rw [if_neg hempty]
    have hwfilt : WfSpans (coords.filter pred) :=
      fun c hcm => hwf c (List.mem_of_mem_filter hcm)
    have hpfilt : PassB (bounds.1 - buf) (bounds.2 + buf) (coords.filter pred) := by
      intro c hcm
      have hpc := List.of_mem_filter hcm
      rw [hpred] at hpc
      simp only [Bool.not_eq_true', Bool.or_eq_false_iff, decide_eq_false_iff_not] at hpc
      constructor <;> omega
    obtain ⟨hwM, hcM, hpM⟩ := merge_spans_props hwfilt hpfilt
    cases hM : merge_spans (coords.filter pred) with
    | nil =>
      have hz : merge_spans (([] : List Span) ++
          (complement_spans ([] : List Span)).filter (fun g => decide (g.2 - g.1 + 1 ≤ ms)))
          = [] := rfl
      rw [hz]
      refine ⟨?_, List.chain'_nil, ?_⟩ <;> intro c hcm <;> simp at hcm
    | cons m0 mt =>
      rw [hM] at hwM hcM hpM
      rw [fill_eq ms mt m0 hwM hcM]
      obtain ⟨hwN, hcN⟩ := fillInto_chain_aux hwM hcM
      exact ⟨hwN, hcN, fillInto_pass hpM⟩

/-- C5: interval merge-and-gap-fill is idempotent — for every list of intervals
    and every flank-bounds pair (and any buffer and max_sep), applying
    combine_trf_coords a second time to its own output with the same parameters
    returns that output unchanged. -/
theorem c5_combine_trf_coords_idempotent (coords : List Span) (bounds : Span) (buf ms : ℤ)
    (hwf : ∀ c ∈ coords, c.1 ≤ c.2) :
    combine_trf_coords (combine_trf_coords coords bounds buf ms) bounds buf ms
      = combine_trf_coords coords bounds buf ms := by
  obtain ⟨hw2, hc2, hp2⟩ := combine_props coords bounds buf ms hwf
  exact combine_fixed hw2 hc2 hp2

/-- C5 witness: a concrete run — two in-bounds intervals separated by a gap of
    29 merge into one span, and re-running combine_trf_coords is the identity. -/
theorem c5_witness :
    (∀ c ∈ [((90 : ℤ), (120 : ℤ)), ((150 : ℤ), (210 : ℤ))], c.1 ≤ c.2) ∧
    combine_trf_coords [((90 : ℤ), (120 : ℤ)), ((150 : ℤ), (210 : ℤ))] (100, 300) 20 50
      = [((90 : ℤ), (210 : ℤ))] ∧
    combine_trf_coords
        (combine_trf_coords [((90 : ℤ), (120 : ℤ)), ((150 : ℤ), (210 : ℤ))] (100, 300) 20 50)
        (100, 300) 20 50
      = combine_trf_coords [((90 : ℤ), (120 : ℤ)), ((150 : ℤ), (210 : ℤ))] (100, 300) 20 50 :=
  ⟨by decide, by decide,
    c5_combine_trf_coords_idempotent [(90, 120), (150, 210)] (100, 300) 20 50 (by decide)⟩

-- Motif-equivalence index construction (tre.py 533-548)

/-- One tab-separated blastn hit row as read by parse_pat_blastn: query id,
    subject id (both are the motif strings themselves), percent identity,
    alignment length. -/
structure BlastHit where
  query : Motif
  subject : Motif
  pid : ℚ
  alen : ℤ
deriving DecidableEq

/-- tre.py 533-548: parse_pat_blastn — keep hits with percent identity ≥ min_pid
    and alignment length ≥ 0.8 of the shorter id (the 0.8 is hardcoded in the
    source; the min_alen parameter is accepted but unused, as in the source).
    The float comparison alen/min(qlen, slen) >= 0.8 is cross-multiplied by the
    positive denominator. The defaultdict of sets becomes the list of
    (query, subject) pairs that pass: subject is added to the entry of query
    only — membership of b in the set of a is (a, b) ∈ parse_pat_blastn rows. -/
def parse_pat_blastn (min_pid min_alen : ℚ) (rows : List BlastHit) : List (Motif × Motif) :=
  rows.filterMap (fun r =>
    if min_pid ≤ r.pid ∧ 8 * (min (r.query.length : ℤ) (r.subject.length : ℤ)) ≤ 10 * r.alen
    then some (r.query, r.subject) else none)

/-- C4 counterexample: a single blastn hit row (query AAAT, subject AATA,
    identity 1.0, alignment length 4) passes the filters, so AATA is in the
    equivalence set of AAAT, but AAAT is not in the set of AATA: the index is
    not symmetric. -/
theorem c4_counterexample :
    ("AAAT".toList, "AATA".toList) ∈
      parse_pat_blastn (mkRat 8 10) (mkRat 8 10)
        [⟨"AAAT".toList, "AATA".toList, 1, 4⟩] ∧
    ("AATA".toList, "AAAT".toList) ∉
      parse_pat_blastn (mkRat 8 10) (mkRat 8 10)
        [⟨"AAAT".toList, "AATA".toList, 1, 4⟩] := by
  constructor
  · decide
  · decide

/-- C4 (amended): the index built by parse_pat_blastn is the directional mapping
    query → matched subjects: b lies in the set assigned to a exactly when some
    hit row with query a and subject b passes the identity and length filters.
    It is not symmetrized (see the counterexample). -/
theorem c4_amended (min_pid min_alen : ℚ) (rows : List BlastHit) (a b : Motif) :
    (a, b) ∈ parse_pat_blastn min_pid min_alen rows ↔
    ∃ r ∈ rows, r.query = a ∧ r.subject = b ∧ min_pid ≤ r.pid ∧
      8 * (min (a.length : ℤ) (b.length : ℤ)) ≤ 10 * r.alen := by
  rw [parse_pat_blastn]
  rw [List.mem_filterMap]
  constructor
  · rintro ⟨r, hr, hsome⟩
    by_cases hcond : min_pid ≤ r.pid ∧ 8 * (min (r.query.length : ℤ) (r.subject.length : ℤ)) ≤ 10 * r.alen
    · rw [if_pos hcond] at hsome
      obtain ⟨hq, hb⟩ := Prod.mk.injEq _ _ _ _ ▸ Option.some.injEq _ _ ▸ hsome
      exact ⟨r, hr, hq, hb, hcond.1, by rw [← hq, ← hb]; exact hcond.2⟩
    · rw [if_neg hcond] at hsome
      exact absurd hsome (by simp)
  · rintro ⟨r, hr, hq, hb, hpid, hlen⟩
    refine ⟨r, hr, ?_⟩
    rw [if_pos ⟨hpid, by rw [hq, hb]; exact hlen⟩]
    rw [hq, hb]

-- Allele extraction in the genotyping path (tre.py 550-641)

/-- A locus as carried through extract_alleles_trf: chromosome and the two
    genome coordinates (the source carries them as strings from the fasta
    header and re-parses ints where needed; here they are ints directly). -/
abbrev Locus := String × ℤ × ℤ

/-- One repeat-finder hit retained in results_matched (tre.py 575-581):
    local start and end (1-based), the consensus motif (cols[13]), and the
    length of the matched repeat sequence (len(r[-1]), the 15th field). -/
structure TrfHit where
  hstart : ℤ
  hend : ℤ
  motif : Motif
  matchLen : ℕ
deriving DecidableEq

/-- One evidence sequence of the genotyping path, after parsing its header
    (tre.py 557-581): the locus, the read name, the anchor genome coordinates
    (gstart, gend), the sequence length (cols[-3]), the read-local offset of
    the sequence (rstart, cols[-2]), the read length (cols[-1]), the length of
    repeat_seqs[seq], the read strand, and the hits whose motif matched an
    expected pattern (results_matched). -/
structure TrfRecord where
  locus : Locus
  read : String
  gstart : ℤ
  gend : ℤ
  seqLen : ℤ
  rstart : ℤ
  readLen : ℤ
  repeatSeqLen : ℕ
  isMinus : Bool
  matched : List TrfHit
deriving DecidableEq

/-- Sort key of tre.py 591: span width c[1]-c[0], descending (stable). -/
def spanGE (a b : Span) : Prop := b.2 - b.1 ≤ a.2 - a.1

instance : DecidableRel spanGE := fun _ _ => inferInstanceAs (Decidable (_ ≤ _))

instance : IsTotal Span spanGE where
  total a b := by
    unfold spanGE
    omega

instance : IsTrans Span spanGE where
  trans a b c hab hbc := by
    unfold spanGE at *
    omega

/-- tre.py 583-593: reconcile the matched hits' coordinates against the flank
    bounds and pick the widest merged span (sorting only when more than one
    span remains, as in the source). None when results_matched is empty or the
    merge leaves nothing. -/
def trf_head_coords (flank : ℤ) (rec : TrfRecord) : Option Span :=
  if rec.matched.isEmpty then none
  else
    let bounds : Span := (flank, rec.seqLen - flank)
    let cc0 := combine_trf_coords (rec.matched.map (fun r => (r.hstart, r.hend))) bounds 20 50
    let cc := if 1 < cc0.length then List.insertionSort spanGE cc0 else cc0
    cc.head?

/-- tre.py 598: the condition of the too_far_from_read_end debug message —
    the chosen span starts at least too_far_from_read_end after the left flank
    bound or ends at least that far before the right flank bound. -/
def too_far_from_read_end_check (flank tooFar : ℤ) (rec : TrfRecord) : Bool :=
  match trf_head_coords flank rec with
  | none => false
  | some c =>
    decide (flank + tooFar ≤ c.1) || decide (c.2 ≤ (rec.seqLen - flank) - tooFar)

/-- The fields computed for an accepted candidate allele
    (tre.py 602-629, before insertion). -/
structure TrfCand where
  rpos : ℤ
  size : ℤ
  gs : ℤ
  ge : ℤ
  pats : List Motif
deriving DecidableEq

/-- tre.py 602: the rejection test applied to the chosen span — reject when
    check_seq_len (|len(repeat_seqs[seq]) - 2*flank|) is zero or the span as a
    fraction of check_seq_len is below min_span (0.2 when check_seq_len < 50,
    else 0.5). The float comparison span/check_seq_len < min_span is
    cross-multiplied by the positive denominator check_seq_len (the zero case
    is tested first, as in the source). -/
def trf_reject (flank : ℤ) (rec : TrfRecord) (c : Span) : Bool :=
  decide (|(rec.repeatSeqLen : ℤ) - 2 * flank| = 0) ||
  decide ((c.2 - c.1 + 1) * (if |(rec.repeatSeqLen : ℤ) - 2 * flank| < 50 then 5 else 2)
    < |(rec.repeatSeqLen : ℤ) - 2 * flank|)

/-- tre.py 605-629: the fields of an accepted candidate allele. The strict
    branch clamps the genome span to the declared locus bounds when that
    leaves positive size; Python's in-place mutations become sequential
    bindings. -/
def trf_build (strict : Bool) (flank : ℤ) (rec : TrfRecord) (c : Span) : TrfCand :=
  let size := c.2 - c.1 + 1
  let rpos := rec.rstart + c.1 - 1
  let gs := rec.gstart + c.1
  let ge := rec.gend - (rec.seqLen - c.2)
  let longest := (rec.matched.map TrfHit.matchLen).foldr max 0
  let pats := ((rec.matched.filter (fun h => decide (h.matchLen = longest))).map
    TrfHit.motif).dedup
  if strict ∧ gs < ge ∧ 50 < size then
    let s1 : ℤ × ℤ × ℤ :=
      if gs < rec.locus.2.1 then
        let diff := rec.locus.2.1 - gs
        if diff < size then (rec.locus.2.1, rpos + diff, size - diff) else (gs, rpos, size)
      else (gs, rpos, size)
    let s2 : ℤ × ℤ :=
      if rec.locus.2.2 < ge then
        let diff := ge - rec.locus.2.2
        if diff < s1.2.2 then (rec.locus.2.2, s1.2.2 - diff) else (ge, s1.2.2)
      else (ge, s1.2.2)
    ⟨s1.2.1, s2.2, s1.1, s2.1, pats⟩
  else
    ⟨rpos, size, gs, ge, pats⟩

/-- tre.py 583-629: acceptance of a candidate allele and computation of its
    fields. -/
def trf_candidate (strict : Bool) (flank : ℤ) (rec : TrfRecord) : Option TrfCand :=
  match trf_head_coords flank rec with
  | none => none
  | some c =>
    if trf_reject flank rec c then none else some (trf_build strict flank rec c)

/-- An AlleleObservation: per (locus, read) — read-local repeat start, motif
    set, size in bp, genome start/end, strand. -/
structure Obs where
  rpos : ℤ
  pats : List Motif
  size : ℤ
  gs : ℤ
  ge : ℤ
  isMinus : Bool
deriving DecidableEq

/-- tre.py 632-639: the observation stored for an accepted candidate — the
    read-local start is reflected through the read length on the reverse
    strand, and the genome span falls back to the header anchors (gstart,
    gend) when the computed coordinates do not increase. -/
def trf_obs (rec : TrfRecord) (cand : TrfCand) : Obs :=
  let rpos := if rec.isMinus then rec.readLen - cand.rpos - cand.size + 1 else cand.rpos
  if cand.gs < cand.ge then ⟨rpos, cand.pats, cand.size, cand.gs, cand.ge, rec.isMinus⟩
  else ⟨rpos, cand.pats, cand.size, rec.gstart, rec.gend, rec.isMinus⟩

/-- The per-record outcome of the loop body of extract_alleles_trf:
    None when the candidate is rejected. -/
def processTrfRecord (strict : Bool) (flank : ℤ) (rec : TrfRecord) : Option Obs :=
  (trf_candidate strict flank rec).map (trf_obs rec)

abbrev AKey := Locus × String

def lookupObs (m : List (AKey × Obs)) (k : AKey) : Option Obs :=
  (m.find? (fun e => decide (e.1 = k))).map Prod.snd

/-- tre.py 632-639: insertion into the per-locus allele dict — the observation
    is stored only if no observation for (locus, read) exists yet. -/
def addAllele (strict : Bool) (flank : ℤ) (m : List (AKey × Obs)) (rec : TrfRecord) :
    List (AKey × Obs) :=
  match processTrfRecord strict flank rec with
  | none => m
  | some obs =>
    if (lookupObs m (rec.locus, rec.read)).isSome then m
    else m ++ [((rec.locus, rec.read), obs)]

/-- The allele-accumulation loop of extract_alleles_trf over all evidence
    records (tre.py 557-639), producing the alleles map keyed by
    (locus, read). -/
def extract_alleles_map (strict : Bool) (flank : ℤ) (recs : List TrfRecord) :
    List (AKey × Obs) :=
  recs.foldl (addAllele strict flank) []

theorem int_div_lt_frac {a b n d : ℤ} (hb : 0 < b) (hd : 0 < d) :
    ((a : ℚ) / (b : ℚ) < (n : ℚ) / (d : ℚ)) ↔ a * d < n * b := by
  rw [div_lt_div_iff (by exact_mod_cast hb) (by exact_mod_cast hd)]
  constructor <;> intro h <;> exact_mod_cast h

/-- The evidence record of the C1 counterexample: a 400bp evidence sequence
    for locus chr1:1000-2000 with flank 100, whose matched repeat span
    (300, 400) starts exactly at bounds[0] + 200 (the too-far condition holds)
    while covering fraction 101/200 ≥ 0.5 (the coverage condition passes). -/
def c1_record : TrfRecord :=
  ⟨("chr1", 1000, 2000), "r1", 0, 10000, 400, 1, 5000, 400, false,
    [⟨300, 400, "AG".toList, 101⟩]⟩

/-- C1 counterexample: for this record the reconciled span lies farther than
    the 200bp tolerance from the read's mapped end (the debug condition of
    tre.py 598 holds), yet the candidate allele is NOT rejected — the code
    only prints a debug message there and never drops the read for distance. -/
theorem c1_counterexample :
    too_far_from_read_end_check 100 200 c1_record = true ∧
    (processTrfRecord false 100 c1_record).isSome = true := by
  constructor
  · decide
  · decide

/-- C1 (amended): given the reconciled breakpoint-spanning span, the candidate
    allele is rejected exactly when the expected insert size
    (|sequence length - two flank widths|) is zero, or the span length as a
    fraction of it is below the minimum-coverage threshold (0.2 when the
    expected size is under 50, else 0.5). The distance-from-read-end condition
    never causes rejection (it only gates a debug log; see the
    counterexample). -/
theorem c1_amended (strict : Bool) (flank : ℤ) (rec : TrfRecord) (c : Span)
    (h : trf_head_coords flank rec = some c) :
    trf_candidate strict flank rec = none ↔
      (|(rec.repeatSeqLen : ℤ) - 2 * flank| = 0 ∨
        ((c.2 - c.1 + 1 : ℤ) : ℚ) / ((|(rec.repeatSeqLen : ℤ) - 2 * flank| : ℤ) : ℚ) <
          (if |(rec.repeatSeqLen : ℤ) - 2 * flank| < 50 then mkRat 1 5 else mkRat 1 2)) := by
  have hmain : trf_candidate strict flank rec = none ↔ trf_reject flank rec c = true := by
    unfold trf_candidate
    rw [h]
    dsimp only
    by_cases hr : trf_reject flank rec c
    · rw [if_pos hr]
      simp [hr]
    · rw [if_neg hr]
      simp [hr]
  rw [hmain, trf_reject, Bool.or_eq_true, decide_eq_true_iff, decide_eq_true_iff]
  by_cases hz : |(rec.repeatSeqLen : ℤ) - 2 * flank| = 0
  · constructor
    · intro _
      exact Or.inl hz
    · intro _
      exact Or.inl hz
  · have hpos : 0 < |(rec.repeatSeqLen : ℤ) - 2 * flank| := by
      exact lt_of_le_of_ne (abs_nonneg _) (Ne.symm hz)
    constructor
    · rintro (h0 | hlt)
      · exact absurd h0 hz
      · refine Or.inr ?_
        by_cases h50 : |(rec.repeatSeqLen : ℤ) - 2 * flank| < 50
        · rw [if_pos h50] at hlt ⊢
          rw [show (mkRat 1 5 : ℚ) = ((1 : ℤ) : ℚ) / ((5 : ℤ) : ℚ) by
            rw [Rat.mkRat_eq_div]; norm_num]
          rw [int_div_lt_frac hpos (by norm_num)]
          omega
        · rw [if_neg h50] at hlt ⊢
          rw [show (mkRat 1 2 : ℚ) = ((1 : ℤ) : ℚ) / ((2 : ℤ) : ℚ) by
            rw [Rat.mkRat_eq_div]; norm_num]
          rw [int_div_lt_frac hpos (by norm_num)]
          omega
    · rintro (h0 | hlt)
      · exact absurd h0 hz
      · refine Or.inr ?_
        by_cases h50 : |(rec.repeatSeqLen : ℤ) - 2 * flank| < 50
        · rw [if_pos h50] at hlt ⊢
          rw [show (mkRat 1 5 : ℚ) = ((1 : ℤ) : ℚ) / ((5 : ℤ) : ℚ) by
            rw [Rat.mkRat_eq_div]; norm_num] at hlt
          rw [int_div_lt_frac hpos (by norm_num)] at hlt
          omega
        · rw [if_neg h50] at hlt ⊢
          rw [show (mkRat 1 2 : ℚ) = ((1 : ℤ) : ℚ) / ((2 : ℤ) : ℚ) by
            rw [Rat.mkRat_eq_div]; norm_num] at hlt
          rw [int_div_lt_frac hpos (by norm_num)] at hlt
          omega

/-- A record whose candidate is rejected for low coverage: matched span
    (300, 320) covers 21/200 < 0.5 of the expected insert size. -/
def c1_low_coverage_record : TrfRecord :=
  ⟨("chr1", 1000, 2000), "r1", 0, 10000, 400, 1, 5000, 400, false,
    [⟨300, 320, "AG".toList, 21⟩]⟩

/-- C1 amended witness: the amended rejection criterion applied at a concrete
    rejected record. -/
theorem c1_amended_witness :
    trf_head_coords 100 c1_low_coverage_record = some (300, 320) ∧
    (trf_candidate false 100 c1_low_coverage_record = none ↔
      (|((400 : ℕ) : ℤ) - 2 * 100| = 0 ∨
        ((((320 : ℤ), (320 : ℤ)).2 - ((300 : ℤ), (320 : ℤ)).1 + 1 : ℤ) : ℚ) /
            ((|((400 : ℕ) : ℤ) - 2 * 100| : ℤ) : ℚ) <
          (if |((400 : ℕ) : ℤ) - 2 * 100| < 50 then mkRat 1 5 else mkRat 1 2))) :=
  ⟨by decide, c1_amended false 100 c1_low_coverage_record (300, 320) (by decide)⟩

/-- C10: when the computed genome coordinates of an accepted candidate do not
    increase (genome start ≥ genome end), the allele is still recorded, and
    the stored AlleleObservation carries the anchor coordinates gstart and
    gend from the evidence-sequence header instead of the computed span
    (tre.py 636-639). -/
theorem c10_inverted_coords_fallback (strict : Bool) (flank : ℤ) (rec : TrfRecord)
    (cand : TrfCand) (h : trf_candidate strict flank rec = some cand)
    (hinv : cand.ge ≤ cand.gs) :
    processTrfRecord strict flank rec = some (trf_obs rec cand) ∧
    (trf_obs rec cand).gs = rec.gstart ∧ (trf_obs rec cand).ge = rec.gend := by
  refine ⟨by rw [processTrfRecord, h]; rfl, ?_, ?_⟩ <;>
    rw [trf_obs] <;>
    rw [if_neg (not_lt.mpr hinv)]

/-- The evidence record of the C10 witness: the computed genome span is
    (1150, 950), inverted, so the header anchors (1000, 1100) are stored. -/
def c10_record : TrfRecord :=
  ⟨("chr1", 1000, 2000), "r1", 1000, 1100, 400, 1, 5000, 400, false,
    [⟨150, 250, "AG".toList, 101⟩]⟩

theorem c10_witness :
    trf_candidate false 100 c10_record = some ⟨150, 101, 1150, 950, ["AG".toList]⟩ ∧
    ((⟨150, 101, 1150, 950, ["AG".toList]⟩ : TrfCand).ge ≤
      (⟨150, 101, 1150, 950, ["AG".toList]⟩ : TrfCand).gs) ∧
    (processTrfRecord false 100 c10_record
        = some (trf_obs c10_record ⟨150, 101, 1150, 950, ["AG".toList]⟩) ∧
      (trf_obs c10_record ⟨150, 101, 1150, 950, ["AG".toList]⟩).gs = c10_record.gstart ∧
      (trf_obs c10_record ⟨150, 101, 1150, 950, ["AG".toList]⟩).ge = c10_record.gend) :=
  ⟨by decide, by decide,
    c10_inverted_coords_fallback false 100 c10_record _ (by decide) (by decide)⟩

-- C7: first write wins in the alleles map

def optOr (a b : Option Obs) : Option Obs :=
  match a with
  | some x => some x
  | none => b

theorem optOr_none (a : Option Obs) : optOr a none = a := by
  cases a <;> rfl

theorem optOr_of_isSome {a : Option Obs} (h : a.isSome) (b : Option Obs) : optOr a b = a := by
  cases a with
  | none => simp at h
  | some x => rfl

theorem lookupObs_cons (e : AKey × Obs) (rest : List (AKey × Obs)) (k : AKey) :
    lookupObs (e :: rest) k = if e.1 = k then some e.2 else lookupObs rest k := by
  by_cases he : e.1 = k
  · rw [lookupObs, List.find?_cons_of_pos _ (by simpa using he), if_pos he]
    rfl
  · rw [lookupObs, List.find?_cons_of_neg _ (by simpa using he), if_neg he]
    rfl

theorem lookupObs_append_single (m : List (AKey × Obs)) (k k' : AKey) (o : Obs) :
    lookupObs (m ++ [(k', o)]) k =
      optOr (lookupObs m k) (if k' = k then some o else none) := by
  induction m with
  | nil =>
    rw [List.nil_append, lookupObs_cons]
    by_cases hk : k' = k
    · rw [if_pos (show ((k', o) : AKey × Obs).1 = k from hk), if_pos hk]
      rfl
    · rw [if_neg (show ¬((k', o) : AKey × Obs).1 = k from hk), if_neg hk]
      rfl
  | cons e rest ih =>
    rw [List.cons_append, lookupObs_cons, lookupObs_cons]
    by_cases he : e.1 = k
    · simp only [if_pos he]
      rfl
    · simp only [if_neg he]
      exact ih

theorem lookupObs_none_iff (m : List (AKey × Obs)) (k : AKey) :
    lookupObs m k = none ↔ k ∉ m.map Prod.fst := by
  rw [lookupObs, Option.map_eq_none']
  rw [List.find?_eq_none]
  constructor
  · intro h hk
    obtain ⟨e, he, hek⟩ := List.mem_map.mp hk
    exact absurd (by simpa using hek) (by simpa using h e he)
  · intro h e he
    simp only [decide_eq_true_eq]
    intro hek
    exact h (List.mem_map.mpr ⟨e, he, hek⟩)

theorem extract_fold_lookup (strict : Bool) (flank : ℤ) :
    ∀ (recs : List TrfRecord) (m : List (AKey × Obs)) (k : AKey),
    lookupObs (recs.foldl (addAllele strict flank) m) k =
      optOr (lookupObs m k)
        ((recs.find? (fun rec => decide ((rec.locus, rec.read) = k) &&
          (processTrfRecord strict flank rec).isSome)).bind (processTrfRecord strict flank)) := by
  intro recs
  induction recs with
  | nil =>
    intro m k
    rw [List.foldl_nil, List.find?_nil, Option.none_bind, optOr_none]
  | cons rec rest ih =>
    intro m k
    rw [List.foldl_cons]
    rw [show addAllele strict flank m rec =
        (match processTrfRecord strict flank rec with
         | none => m
         | some obs =>
           if (lookupObs m (rec.locus, rec.read)).isSome then m
           else m ++ [((rec.locus, rec.read), obs)]) from rfl]
    cases hproc : processTrfRecord strict flank rec with
    | none =>
      rw [List.find?_cons_of_neg _ (by simp [hproc])]
      exact ih m k
    | some obs =>
      dsimp only
      by_cases hkey : (rec.locus, rec.read) = k
      · rw [List.find?_cons_of_pos _ (by simp [hproc, hkey]), Option.some_bind, hproc]
        by_cases hex : (lookupObs m (rec.locus, rec.read)).isSome
        · rw [if_pos hex]
          rw [ih m k]
          rw [hkey] at hex
          obtain ⟨v, hv⟩ := Option.isSome_iff_exists.mp hex
          rw [hv]
          rfl
        · rw [if_neg hex]
          rw [ih (m ++ [((rec.locus, rec.read), obs)]) k]
          rw [lookupObs_append_single, if_pos hkey]
          have hnone : lookupObs m k = none := by
            rw [← hkey]
            cases hlm : lookupObs m (rec.locus, rec.read)
            · rfl
            · rw [hlm] at hex
              simp at hex
          rw [hnone]
          rfl
      · rw [List.find?_cons_of_neg _ (by simp [hkey])]
        by_cases hex : (lookupObs m (rec.locus, rec.read)).isSome
        · rw [if_pos hex]
          exact ih m k
        · rw [if_neg hex]
          rw [ih (m ++ [((rec.locus, rec.read), obs)]) k]
          rw [lookupObs_append_single, if_neg hkey, optOr_none]

theorem extract_fold_nodup (strict : Bool) (flank : ℤ) :
    ∀ (recs : List TrfRecord) (m : List (AKey × Obs)), (m.map Prod.fst).Nodup →
    (((recs.foldl (addAllele strict flank) m)).map Prod.fst).Nodup := by
  intro recs
  induction recs with
  | nil =>
    intro m hm
    exact hm
  | cons rec rest ih =>
    intro m hm
    rw [List.foldl_cons]
    refine ih _ ?_
    rw [addAllele]
    cases hproc : processTrfRecord strict flank rec with
    | none => exact hm
    | some obs =>
      dsimp only
      by_cases hex : (lookupObs m (rec.locus, rec.read)).isSome
      · rw [if_pos hex]
        exact hm
      · rw [if_neg hex]
        rw [List.map_append]
        refine ((List.perm_append_singleton _ _).nodup_iff).mpr ?_
        rw [List.nodup_cons]
        refine ⟨?_, hm⟩
        have hnone : lookupObs m (rec.locus, rec.read) = none := by
          cases hlm : lookupObs m (rec.locus, rec.read)
          · rfl
          · rw [hlm] at hex
            simp at hex
        exact (lookupObs_none_iff m _).mp hnone

/-- C7: at most one AlleleObservation is ever stored per (locus, read) — the
    accumulated alleles map of extract_alleles_trf has no duplicate keys — and
    the observation retained for a (locus, read) key is the one computed from
    the FIRST evidence record for that key whose candidate allele is accepted;
    every later record for the same key is ignored (tre.py 632-639). -/
theorem c7_first_write_wins (strict : Bool) (flank : ℤ) (recs : List TrfRecord) (k : AKey) :
    (((extract_alleles_map strict flank recs)).map Prod.fst).Nodup ∧
    lookupObs (extract_alleles_map strict flank recs) k =
      (recs.find? (fun rec => decide ((rec.locus, rec.read) = k) &&
        (processTrfRecord strict flank rec).isSome)).bind (processTrfRecord strict flank) := by
  constructor
  · exact extract_fold_nodup strict flank recs [] (by simp)
  · rw [extract_alleles_map, extract_fold_lookup strict flank recs [] k]
    rfl

-- Allele-to-variant conversion (tre.py 689-727)

/-- One allele row of a variant (tre.py 700-708): read name, read-local start,
    repeat motif and copy number (filled in after the canonical motif is
    chosen), size, genome start/end, strand. -/
structure ARec where
  read : String
  rstart : ℤ
  rep : Option Motif
  copy : Option ℚ
  size : ℤ
  gs : ℤ
  ge : ℤ
  isMinus : Bool
deriving DecidableEq

/-- A variant as assembled by alleles_to_variants (tre.py 692): locus fields,
    allele rows, canonical motif. The genotype fields (variant[5], variant[6])
    are filled later by the external genotyper and are out of scope. -/
structure TreVariant where
  chrom : String
  vstart : ℤ
  vend : ℤ
  alleles : List ARec
  pat : Option Motif
deriving DecidableEq

/-- Counter.update for one element: first occurrence appends a new entry with
    count 1, repeats increment in place (Python Counter preserves insertion
    order). -/
def bump (items : List (Motif × ℕ)) (p : Motif) : List (Motif × ℕ) :=
  match items with
  | [] => [(p, 1)]
  | (q, c) :: rest => if q = p then (q, c + 1) :: rest else (q, c) :: bump rest p

def updateCounter (items : List (Motif × ℕ)) (ps : List Motif) : List (Motif × ℕ) :=
  ps.foldl bump items

/-- Counter.most_common sort order: by count, descending (stable). -/
def cntGE (a b : Motif × ℕ) : Prop := b.2 ≤ a.2

instance : DecidableRel cntGE := fun _ _ => inferInstanceAs (Decidable (_ ≤ _))

instance : IsTotal (Motif × ℕ) cntGE where
  total a b := le_total b.2 a.2

instance : IsTrans (Motif × ℕ) cntGE where
  trans _ _ _ hab hbc := le_trans hbc hab

/-- Sort order of tre.py 720: by motif length, ascending (stable). -/
def lenLE (a b : Motif) : Prop := a.length ≤ b.length

instance : DecidableRel lenLE := fun _ _ => inferInstanceAs (Decidable (_ ≤ _))

instance : IsTotal Motif lenLE where
  total a b := le_total a.length b.length

instance : IsTrans Motif lenLE where
  trans _ _ _ hab hbc := le_trans hab hbc

/-- tre.py 713-719: the motifs tied for the top count, read off the
    most_common list (descending by count): the head plus the prefix of the
    tail with the same count. -/
def topPats : List (Motif × ℕ) → List Motif
  | [] => []
  | (p, c) :: rest => p :: (rest.takeWhile (fun x => decide (x.2 = c))).map Prod.fst

/-- Python round(num/den, 1) scaled: round num/den to the nearest integer with
    ties to even (den positive in every reachable call). -/
def roundHalfEven (num den : ℤ) : ℤ :=
  let q := Int.fdiv num den
  let r := num - q * den
  if 2 * r < den then q
  else if den < 2 * r then q + 1
  else if q % 2 = 0 then q else q + 1

/-- Python round(float(size)/len, 1): one decimal place, ties to even,
    computed exactly on the rational size/len. -/
def round1frac (size : ℤ) (len : ℕ) : ℚ :=
  mkRat (roundHalfEven (10 * size) len) 10

/-- tre.py 691-725, body for one locus: None when the locus has fewer
    supporting reads than min_support; otherwise the variant with its allele
    rows, the canonical motif (shortest among the motifs tied for the top
    count), and each allele's repeat/copy-number re-expressed against the
    canonical motif. The order of reads is the dict insertion order; the
    Counter is updated with each read's motif set in that order. -/
def mkVariant (min_support : ℕ) (entry : Locus × List (String × Obs)) : Option TreVariant :=
  if entry.2.length < min_support then none
  else
    let items := entry.2.foldl (fun acc e => updateCounter acc e.2.pats) []
    let recs0 := entry.2.map (fun e =>
      (⟨e.1, e.2.rpos, none, none, e.2.size, e.2.gs, e.2.ge, e.2.isMinus⟩ : ARec))
    let mc := List.insertionSort cntGE items
    let canonical := (List.insertionSort lenLE (topPats mc)).head?
    let recs := match canonical with
      | none => recs0
      | some c => recs0.map (fun a =>
          { a with rep := some c, copy := some (round1frac a.size c.length) })
    some ⟨entry.1.1, entry.1.2.1, entry.1.2.2, recs, canonical⟩

/-- tre.py 689-727: alleles_to_variants over the per-locus alleles map
    (in dict insertion order). -/
def alleles_to_variants (min_support : ℕ) (alleles : List (Locus × List (String × Obs))) :
    List TreVariant :=
  alleles.filterMap (mkVariant min_support)

/-- The motif tally across a locus's accepted per-read alleles: how many
    reads' motif sets contain p. -/
def tallyCount (obsL : List (String × Obs)) (p : Motif) : ℕ :=
  (obsL.map (fun e => e.2.pats.count p)).sum

/-- Count held by the Counter for a motif (0 when absent). -/
def lookupCount (items : List (Motif × ℕ)) (p : Motif) : ℕ :=
  ((items.find? (fun e => decide (e.1 = p))).map Prod.snd).getD 0

theorem tallyCount_cons (e : String × Obs) (rest : List (String × Obs)) (q : Motif) :
    tallyCount (e :: rest) q = e.2.pats.count q + tallyCount rest q := by
  rw [tallyCount, tallyCount, List.map_cons, List.sum_cons]

theorem lookupCount_cons (e : Motif × ℕ) (rest : List (Motif × ℕ)) (p : Motif) :
    lookupCount (e :: rest) p = if e.1 = p then e.2 else lookupCount rest p := by
  by_cases he : e.1 = p
  · rw [lookupCount, List.find?_cons_of_pos _ (by simpa using he), if_pos he]
    rfl
  · rw [lookupCount, List.find?_cons_of_neg _ (by simpa using he), if_neg he]
    rfl

theorem bump_lookup (items : List (Motif × ℕ)) (p q : Motif) :
    lookupCount (bump items p) q = lookupCount items q + (if p = q then 1 else 0) := by
  induction items with
  | nil =>
    rw [bump, lookupCount_cons]
    by_cases hpq : p = q
    · rw [if_pos hpq, if_pos hpq]
      rw [show lookupCount [] q = 0 from rfl]
    · rw [if_neg hpq, if_neg hpq]
      rw [show lookupCount [] q = 0 from rfl]
  | cons e rest ih =>
    obtain ⟨e1, e2⟩ := e
    rw [bump]
    by_cases hep : e1 = p
    · rw [if_pos hep, lookupCount_cons, lookupCount_cons]
      by_cases heq : e1 = q
      · have hpq : p = q := hep ▸ heq
        rw [if_pos heq, if_pos heq, if_pos hpq]
      · have hpq : ¬(p = q) := fun hh => heq (hep.symm ▸ hh ▸ rfl)
        rw [if_neg heq, if_neg heq, if_neg hpq]
        omega
    · rw [if_neg hep, lookupCount_cons, lookupCount_cons]
      by_cases heq : e1 = q
      · have hpq : ¬(p = q) := fun hh => hep (heq.symm ▸ hh.symm ▸ rfl)
        rw [if_pos heq, if_pos heq, if_neg hpq]
        show e2 = e2 + 0
        omega
      · rw [if_neg heq, if_neg heq]
        exact ih

theorem updateCounter_lookup (ps : List Motif) :
    ∀ (items : List (Motif × ℕ)) (q : Motif),
    lookupCount (updateCounter items ps) q = lookupCount items q + ps.count q := by
  induction ps with
  | nil =>
    intro items q
    rw [updateCounter, List.foldl_nil, List.count_nil]
    omega
  | cons p rest ih =>
    intro items q
    rw [updateCounter, List.foldl_cons]
    rw [show List.foldl bump (bump items p) rest = updateCounter (bump items p) rest from rfl]
    rw [ih (bump items p) q, bump_lookup, List.count_cons]
    by_cases hpq : p = q
    · rw [if_pos hpq, if_pos (beq_iff_eq.mpr hpq)]
      omega
    · rw [if_neg hpq, if_neg (by rw [beq_iff_eq]; exact hpq)]
      omega

theorem fold_counter_lookup (obsL : List (String × Obs)) :
    ∀ (items : List (Motif × ℕ)) (q : Motif),
    lookupCount (obsL.foldl (fun acc e => updateCounter acc e.2.pats) items) q =
      lookupCount items q + tallyCount obsL q := by
  induction obsL with
  | nil =>
    intro items q
    rw [List.foldl_nil, tallyCount]
    rw [show (([] : List (String × Obs)).map (fun e => e.2.pats.count q)).sum = 0 from rfl]
    omega
  | cons e rest ih =>
    intro items q
    rw [List.foldl_cons, ih, updateCounter_lookup, tallyCount_cons]
    omega

theorem bump_keys_mem (items : List (Motif × ℕ)) (p : Motif) :
    ∀ x ∈ bump items p, x.1 ∈ items.map Prod.fst ∨ x.1 = p := by
  induction items with
  | nil =>
    intro x hx
    rcases List.mem_singleton.mp hx with rfl
    exact Or.inr rfl
  | cons e rest ih =>
    obtain ⟨e1, e2⟩ := e
    intro x hx
    rw [bump] at hx
    rw [List.map_cons]
    by_cases hep : e1 = p
    · rw [if_pos hep] at hx
      rcases List.mem_cons.mp hx with rfl | hx'
      · exact Or.inl (List.mem_cons_self _ _)
      · exact Or.inl (List.mem_cons_of_mem _ (List.mem_map.mpr ⟨x, hx', rfl⟩))
    · rw [if_neg hep] at hx
      rcases List.mem_cons.mp hx with rfl | hx'
      · exact Or.inl (List.mem_cons_self _ _)
      · rcases ih x hx' with hm | hm
        · exact Or.inl (List.mem_cons_of_mem _ hm)
        · exact Or.inr hm

theorem bump_keys_nodup (items : List (Motif × ℕ)) (p : Motif)
    (h : (items.map Prod.fst).Nodup) : ((bump items p).map Prod.fst).Nodup := by
  induction items with
  | nil => simp [bump]
  | cons e rest ih =>
    obtain ⟨e1, e2⟩ := e
    rw [bump]
    rw [List.map_cons, List.nodup_cons] at h
    by_cases hep : e1 = p
    · rw [if_pos hep, List.map_cons, List.nodup_cons]
      exact ⟨h.1, h.2⟩
    · rw [if_neg hep, List.map_cons, List.nodup_cons]
      refine ⟨?_, ih h.2⟩
      intro hmem
      rcases List.mem_map.mp hmem with ⟨x, hx, hx1⟩
      have hx1' : x.1 = e1 := hx1
      rcases bump_keys_mem rest p x hx with hm | hm
      · exact h.1 (hx1' ▸ hm)
      · exact hep (hx1'.symm.trans hm)

theorem bump_counts_pos (items : List (Motif × ℕ)) (p : Motif)
    (h : ∀ x ∈ items, 1 ≤ x.2) : ∀ x ∈ bump items p, 1 ≤ x.2 := by
  induction items with
  | nil =>
    intro x hx
    rcases List.mem_singleton.mp hx with rfl
    exact le_refl _
  | cons e rest ih =>
    obtain ⟨e1, e2⟩ := e
    intro x hx
    rw [bump] at hx
    by_cases hep : e1 = p
    · rw [if_pos hep] at hx
      rcases List.mem_cons.mp hx with rfl | hx'
      · show 1 ≤ e2 + 1
        omega
      · exact h x (List.mem_cons_of_mem _ hx')
    · rw [if_neg hep] at hx
      rcases List.mem_cons.mp hx with rfl | hx'
      · exact h _ (List.mem_cons_self _ _)
      · exact ih (fun z hz => h z (List.mem_cons_of_mem _ hz)) x hx'

theorem updateCounter_keys_nodup (ps : List Motif) :
    ∀ (items : List (Motif × ℕ)), (items.map Prod.fst).Nodup →
    ((updateCounter items ps).map Prod.fst).Nodup := by
  induction ps with
  | nil =>
    intro items h
    exact h
  | cons p rest ih =>
    intro items h
    rw [updateCounter, List.foldl_cons]
    exact ih (bump items p) (bump_keys_nodup items p h)

theorem updateCounter_counts_pos (ps : List Motif) :
    ∀ (items : List (Motif × ℕ)), (∀ x ∈ items, 1 ≤ x.2) →
    ∀ x ∈ updateCounter items ps, 1 ≤ x.2 := by
  induction ps with
  | nil =>
    intro items h
    exact h
  | cons p rest ih =>
    intro items h
    rw [updateCounter, List.foldl_cons]
    exact ih (bump items p) (bump_counts_pos items p h)

theorem fold_counter_keys_nodup (obsL : List (String × Obs)) :
    ∀ (items : List (Motif × ℕ)), (items.map Prod.fst).Nodup →
    (((obsL.foldl (fun acc e => updateCounter acc e.2.pats) items)).map Prod.fst).Nodup := by
  induction obsL with
  | nil =>
    intro items h
    exact h
  | cons e rest ih =>
    intro items h
    rw [List.foldl_cons]
    exact ih _ (updateCounter_keys_nodup _ _ h)

theorem fold_counter_counts_pos (obsL : List (String × Obs)) :
    ∀ (items : List (Motif × ℕ)), (∀ x ∈ items, 1 ≤ x.2) →
    ∀ x ∈ obsL.foldl (fun acc e => updateCounter acc e.2.pats) items, 1 ≤ x.2 := by
  induction obsL with
  | nil =>
    intro items h
    exact h
  | cons e rest ih =>
    intro items h
    rw [List.foldl_cons]
    exact ih _ (updateCounter_counts_pos _ _ h)

theorem lookupCount_of_mem {items : List (Motif × ℕ)} {q : Motif} {n : ℕ}
    (hnodup : (items.map Prod.fst).Nodup) (hmem : (q, n) ∈ items) :
    lookupCount items q = n := by
  induction items with
  | nil => simp at hmem
  | cons e rest ih =>
    rw [List.map_cons, List.nodup_cons] at hnodup
    rcases List.mem_cons.mp hmem with heq | hmem'
    · rw [← heq, lookupCount_cons, if_pos rfl]
  
    · rw [lookupCount_cons]
      have hne : e.1 ≠ q := by
        intro habs
        exact hnodup.1 (List.mem_map.mpr ⟨(q, n), hmem', by rw [habs]⟩)
      rw [if_neg hne]
      exact ih hnodup.2 hmem'

theorem lookupCount_mem {items : List (Motif × ℕ)} {q : Motif}
    (h : lookupCount items q ≠ 0) : (q, lookupCount items q) ∈ items := by
  induction items with
  | nil => simp [lookupCount] at h
  | cons e rest ih =>
    rw [lookupCount_cons] at h ⊢
    by_cases he : e.1 = q
    · rw [if_pos he] at h ⊢
      have heq : e = (q, e.2) := Prod.ext he rfl
      rw [← heq]
      exact List.mem_cons_self _ _
    · rw [if_neg he] at h ⊢
      exact List.mem_cons_of_mem _ (ih h)

theorem mem_of_mem_takeWhile {α : Type} {p : α → Bool} :
    ∀ {l : List α} {x : α}, x ∈ l.takeWhile p → x ∈ l := by
  intro l
  induction l with
  | nil =>
    intro x hx
    simp [List.takeWhile] at hx
  | cons a t ih =>
    intro x hx
    rw [List.takeWhile_cons] at hx
    by_cases hpa : p a
    · rw [if_pos hpa] at hx
      rcases List.mem_cons.mp hx with rfl | hx'
      · exact List.mem_cons_self _ _
      · exact List.mem_cons_of_mem _ (ih hx')
    · rw [if_neg hpa] at hx
      simp at hx

theorem topPats_mem_count {p0 : Motif} {c0 : ℕ} {mrest : List (Motif × ℕ)} :
    ∀ q ∈ topPats ((p0, c0) :: mrest), (q, c0) ∈ (p0, c0) :: mrest := by
  intro q hq
  rw [topPats] at hq
  rcases List.mem_cons.mp hq with rfl | hq'
  · exact List.mem_cons_self _ _
  · obtain ⟨x, hx, hx1⟩ := List.mem_map.mp hq'
    have hx2 : x.2 = c0 := by
      have := List.mem_takeWhile_imp hx
      simpa using this
    have hxm : x ∈ mrest := mem_of_mem_takeWhile hx
    have hxq : x = (q, c0) := Prod.ext hx1 hx2
    exact List.mem_cons_of_mem _ (hxq ▸ hxm)

theorem mem_topPats_of_count {c0 : ℕ} {q : Motif} :
    ∀ (mrest : List (Motif × ℕ)), (∀ y ∈ mrest, y.2 ≤ c0) →
    List.Sorted cntGE mrest → (q, c0) ∈ mrest →
    q ∈ (mrest.takeWhile (fun x => decide (x.2 = c0))).map Prod.fst := by
  intro mrest
  induction mrest with
  | nil =>
    intro _ _ hmem
    simp at hmem
  | cons x t ih =>
    intro hbound hsorted hmem
    rw [List.takeWhile_cons]
    rcases List.mem_cons.mp hmem with heq | hmem'
    · rw [← heq]
      rw [if_pos (by simp)]
      rw [List.map_cons]
      exact List.mem_cons_self _ _
    · by_cases hx2 : x.2 = c0
      · rw [if_pos (by simpa using hx2), List.map_cons]
        refine List.mem_cons_of_mem _ ?_
        exact ih (fun y hy => hbound y (List.mem_cons_of_mem _ hy))
          ((List.sorted_cons.mp hsorted).2) hmem'
      · exfalso
        have hxlt : x.2 < c0 :=
          lt_of_le_of_ne (hbound x (List.mem_cons_self _ _)) hx2
        have := (List.sorted_cons.mp hsorted).1 (q, c0) hmem'
        unfold cntGE at this
        omega

/-- C6: for every locus that yields a Variant, the canonical motif has the
    highest tally count across all accepted per-read alleles, is shortest
    among the motifs tied for that count, and every allele of the Variant has
    its repeat field set to the canonical motif and its copy number set to
    its size divided by the canonical motif's length, rounded to one decimal
    place (tre.py 698-723). -/
theorem c6_canonical_motif (ms : ℕ) (entry : Locus × List (String × Obs)) (v : TreVariant)
    (c : Motif) (h : mkVariant ms entry = some v) (hc : v.pat = some c) :
    (∀ p : Motif, tallyCount entry.2 p ≤ tallyCount entry.2 c) ∧
    (∀ p : Motif, tallyCount entry.2 p = tallyCount entry.2 c → c.length ≤ p.length) ∧
    (∀ a ∈ v.alleles, a.rep = some c ∧ a.copy = some (round1frac a.size c.length)) := by
  rw [mkVariant] at h
  by_cases hms : entry.2.length < ms
  · rw [if_pos hms] at h
    exact absurd h (by simp)
  · rw [if_neg hms] at h
    dsimp only at h
    have hv := Option.some.inj h
    subst hv
    dsimp only at hc
    set items := entry.2.foldl (fun acc e => updateCounter acc e.2.pats) [] with hitems
    set mc := List.insertionSort cntGE items with hmc
    have hnodup : (items.map Prod.fst).Nodup :=
      fold_counter_keys_nodup entry.2 [] (by simp)
    have hposc : ∀ x ∈ items, 1 ≤ x.2 :=
      fold_counter_counts_pos entry.2 [] (by intro x hx; simp at hx)
    have htally : ∀ q, lookupCount items q = tallyCount entry.2 q := by
      intro q
      have := fold_counter_lookup entry.2 [] q
      rw [show lookupCount [] q = 0 from rfl] at this
      rw [hitems, this]
      omega
    have hmcperm : mc.Perm items := List.perm_insertionSort cntGE items
    have hmcsorted : List.Sorted cntGE mc := List.sorted_insertionSort cntGE items
    cases hmc2 : mc with
    | nil =>
      rw [hmc2] at hc
      rw [show topPats [] = [] from rfl] at hc
      simp [List.insertionSort] at hc
    | cons hd mrest =>
      obtain ⟨p0, c0⟩ := hd
      rw [hmc2] at hc hmcperm hmcsorted
      -- facts about the sorted counter
      have hmax : ∀ x ∈ (p0, c0) :: mrest, x.2 ≤ c0 := by
        intro x hx
        rcases List.mem_cons.mp hx with rfl | hx'
        · exact le_refl _
        · exact (List.sorted_cons.mp hmcsorted).1 x hx'
      -- the canonical motif is a member of topPats
      set L := List.insertionSort lenLE (topPats ((p0, c0) :: mrest)) with hL
      have hLsorted : List.Sorted lenLE L := List.sorted_insertionSort lenLE _
      have hLperm : L.Perm (topPats ((p0, c0) :: mrest)) := List.perm_insertionSort lenLE _
      have hcL : c ∈ L := by
        cases hL2 : L with
        | nil =>
          rw [hL2] at hc
          simp at hc
        | cons x t =>
          rw [hL2] at hc
          have hxc : x = c := by simpa using hc
          rw [← hxc]
          exact List.mem_cons_self _ _
      have hc_top : c ∈ topPats ((p0, c0) :: mrest) := hLperm.mem_iff.mp hcL
      have hlen_min : ∀ q ∈ topPats ((p0, c0) :: mrest), c.length ≤ q.length := by
        intro q hq
        have hqL : q ∈ L := hLperm.mem_iff.mpr hq
        cases hL2 : L with
        | nil =>
          rw [hL2] at hqL
          simp at hqL
        | cons x t =>
          have hx : x = c := by
            rw [hL2] at hc
            simpa using hc
          rw [hL2] at hqL hLsorted
          rcases List.mem_cons.mp hqL with rfl | hq'
          · rw [hx]
          · have := (List.sorted_cons.mp hLsorted).1 q hq'
            rw [hx] at this
            exact this
      -- the canonical motif's tally is c0
      have hcc0 : (c, c0) ∈ (p0, c0) :: mrest := topPats_mem_count c hc_top
      have hc_items : (c, c0) ∈ items := hmcperm.subset hcc0
      have hlc : lookupCount items c = c0 := lookupCount_of_mem hnodup hc_items
      have htc : tallyCount entry.2 c = c0 := by rw [← htally, hlc]
      have hc0pos : 1 ≤ c0 := hposc _ hc_items
      refine ⟨?_, ?_, ?_⟩
      · -- maximality
        intro p
        rw [htc, ← htally p]
        by_cases hz : lookupCount items p = 0
        · rw [hz]
          omega
        · have hmem := lookupCount_mem hz
          have : (p, lookupCount items p) ∈ (p0, c0) :: mrest := hmcperm.mem_iff.mpr hmem
          exact hmax _ this
      · -- shortest among the tied
        intro p hp
        rw [htc] at hp
        rw [← htally p] at hp
        have hz : lookupCount items p ≠ 0 := by omega
        have hmem := lookupCount_mem hz
        rw [hp] at hmem
        have hpmc : (p, c0) ∈ (p0, c0) :: mrest := hmcperm.mem_iff.mpr hmem
        refine hlen_min p ?_
        rcases List.mem_cons.mp hpmc with heq | hp'
        · rw [topPats]
          have : p = p0 := by
            have := congrArg Prod.fst heq
            simpa using this
          rw [this]
          exact List.mem_cons_self _ _
        · rw [topPats]
          refine List.mem_cons_of_mem _ ?_
          exact mem_topPats_of_count mrest
            (fun y hy => hmax y (List.mem_cons_of_mem _ hy))
            ((List.sorted_cons.mp hmcsorted).2) hp'
      · -- every allele row is re-expressed against the canonical motif
        intro a ha
        dsimp only at ha
        rw [hc] at ha
        dsimp only at ha
        obtain ⟨a0, _, ha0⟩ := List.mem_map.mp ha
        rw [← ha0]
        exact ⟨rfl, rfl⟩

/-- Observations used in the C6 witness (the spec's AT/ATG/ATGC tally example). -/
def c6_obs (ps : List Motif) : Obs := ⟨1, ps, 30, 100, 200, false⟩

def c6_entry : Locus × List (String × Obs) :=
  (("chr1", 100, 200),
   [("r1", c6_obs ["AT".toList, "ATG".toList]),
    ("r2", c6_obs ["AT".toList, "ATG".toList]),
    ("r3", c6_obs ["AT".toList, "ATG".toList, "ATGC".toList])])

def c6_variant : TreVariant :=
  ⟨"chr1", 100, 200,
   [⟨"r1", 1, some "AT".toList, some 15, 30, 100, 200, false⟩,
    ⟨"r2", 1, some "AT".toList, some 15, 30, 100, 200, false⟩,
    ⟨"r3", 1, some "AT".toList, some 15, 30, 100, 200, false⟩],
   some "AT".toList⟩

/-- C6 witness: the tally AT:3, ATG:3, ATGC:1 yields canonical motif AT
    (tie broken by shortest length), and every allele is re-expressed against
    it (30bp / 2 = copy number 15.0). -/
theorem c6_witness :
    mkVariant 2 c6_entry = some c6_variant ∧
    c6_variant.pat = some "AT".toList ∧
    ((∀ p : Motif, tallyCount c6_entry.2 p ≤ tallyCount c6_entry.2 "AT".toList) ∧
     (∀ p : Motif, tallyCount c6_entry.2 p = tallyCount c6_entry.2 "AT".toList →
       ("AT".toList).length ≤ p.length) ∧
     (∀ a ∈ c6_variant.alleles, a.rep = some "AT".toList ∧
       a.copy = some (round1frac a.size ("AT".toList).length))) :=
  ⟨by decide, by decide,
    c6_canonical_motif 2 c6_entry c6_variant "AT".toList (by decide) (by decide)⟩

/-- C8: a locus all of whose entries have fewer supporting reads than
    min_support contributes no Variant — every Variant in the output of
    alleles_to_variants carries a different locus (tre.py 694-696). -/
theorem c8_min_support (ms : ℕ) (alleles : List (Locus × List (String × Obs))) (L : Locus)
    (v : TreVariant) (hL : ∀ e ∈ alleles, e.1 = L → e.2.length < ms)
    (hv : v ∈ alleles_to_variants ms alleles) :
    ¬(v.chrom = L.1 ∧ v.vstart = L.2.1 ∧ v.vend = L.2.2) := by
  rintro ⟨h1, h2, h3⟩
  obtain ⟨e, he, hmk⟩ := List.mem_filterMap.mp hv
  rw [mkVariant] at hmk
  by_cases hms : e.2.length < ms
  · rw [if_pos hms] at hmk
    exact absurd hmk (by simp)
  · rw [if_neg hms] at hmk
    dsimp only at hmk
    have hv2 := Option.some.inj hmk
    have hchrom : v.chrom = e.1.1 := by rw [← hv2]
    have hstart : v.vstart = e.1.2.1 := by rw [← hv2]
    have hend : v.vend = e.1.2.2 := by rw [← hv2]
    have heL : e.1 = L := by
      apply Prod.ext
      · rw [← hchrom, h1]
      · apply Prod.ext
        · rw [← hstart, h2]
        · rw [← hend, h3]
    exact absurd (hL e he heL) hms

def c8_obs : Obs := ⟨10, ["CAG".toList], 30, 5, 9, false⟩

def c8_locus : Locus := ("chr1", 1, 2)

def c8_alleles : List (Locus × List (String × Obs)) :=
  [(c8_locus, [("r1", c8_obs)]),
   (("chr2", 5, 9), [("r1", c8_obs), ("r2", c8_obs)])]

def c8_variant : TreVariant :=
  ⟨"chr2", 5, 9,
   [⟨"r1", 10, some "CAG".toList, some 10, 30, 5, 9, false⟩,
    ⟨"r2", 10, some "CAG".toList, some 10, 30, 5, 9, false⟩],
   some "CAG".toList⟩

/-- C8 witness: with min_support = 2, the locus chr1:1-2 supported by a single
    read yields no Variant — the only Variant produced comes from chr2:5-9. -/
theorem c8_witness :
    (∀ e ∈ c8_alleles, e.1 = c8_locus → e.2.length < 2) ∧
    c8_variant ∈ alleles_to_variants 2 c8_alleles ∧
    ¬(c8_variant.chrom = c8_locus.1 ∧ c8_variant.vstart = c8_locus.2.1 ∧
      c8_variant.vend = c8_locus.2.2) :=
  ⟨by decide, by decide,
    c8_min_support 2 c8_alleles c8_locus c8_variant (by decide) (by decide)⟩

-- Missed/clipped rescue extraction (tre.py 357-372, 729-763)

/-- Which end of the read is clipped. -/
inductive ClipSide
  | cstart
  | cend
deriving DecidableEq

/-- The alignment fields consumed by extract_missed_clipped and
    extract_aln_tuple: cigar operation/length pairs, the aligned
    (query position, reference position) pairs, alignment boundaries, read
    sequence and inferred read length. -/
structure AlnRec where
  cigartuples : List (ℕ × ℤ)
  aligned_pairs : List (Option ℤ × Option ℤ)
  query_alignment_start : ℤ
  query_alignment_end : ℤ
  reference_start : ℤ
  reference_end : ℤ
  query_sequence : List Char
  inferred_read_length : ℤ
  is_reverse : Bool

/-- tre.py 357-372: extract_aln_tuple — walk the target coordinate away from
    tcoord (left: decreasing, else increasing) up to max_extend positions,
    returning the first aligned pair whose reference position matches and
    whose query position is not None. -/
def extract_aln_tuple (aln : AlnRec) (tcoord : ℤ) (searchLeft : Bool) (maxExtend : ℕ) :
    Option (ℤ × ℤ) :=
  (List.range (maxExtend + 1)).findSome? (fun i =>
    let tpos := if searchLeft then tcoord - i else tcoord + i
    (aln.aligned_pairs.find? (fun p => decide (p.2 = some tpos) && decide (p.1 ≠ none))).bind
      (fun p => p.1.map (fun q => (q, tpos))))

/-- tre.py 729-763: extract_missed_clipped, in the reads_fasta-absent path
    (the sequence is sliced from the alignment's query sequence). For a
    start-side clip the source computes qstart/qend and the aligned tuple but
    then unconditionally returns None (tre.py 744); only the end-side branch
    can return a rescue candidate. Python slicing of non-negative indices
    becomes drop/take. -/
def extract_missed_clipped (flankSize : ℤ) (aln : AlnRec) (clipped_end : ClipSide)
    (gpos : ℤ × ℤ) : Option (ℤ × ℤ × ℤ × List Char) :=
  let clipped_size : Option ℤ :=
    match clipped_end with
    | .cstart =>
      match aln.cigartuples.head? with
      | some t => if 4 ≤ t.1 ∧ t.1 ≤ 5 then some t.2 else none
      | none => none
    | .cend =>
      match aln.cigartuples.getLast? with
      | some t => if 4 ≤ t.1 ∧ t.1 ≤ 5 then some t.2 else none
      | none => none
  match clipped_size with
  | none => none
  | some _ =>
    match clipped_end with
    | .cstart =>
      -- qstart/qend and the aligned tuple are computed here in the source,
      -- but the branch unconditionally returns None (tre.py 744)
      let _tup := extract_aln_tuple aln (min aln.reference_start gpos.1 - flankSize) true 200
      none
    | .cend =>
      match extract_aln_tuple aln (max aln.reference_end gpos.2 + flankSize) false 200 with
      | some tup =>
        let qstart := tup.1
        let qend := aln.inferred_read_length
        let tpos := tup.2
        let seq := (aln.query_sequence.drop qstart.toNat).take (qend - qstart).toNat
        some (qstart, qend, tpos, seq)
      | none => none

/-- C9: for every alignment, locus position and flank size, the missed-clipped
    extraction invoked with clipped end 'start' returns no rescue (None) —
    the start-side branch of tre.py 738-744 always short-circuits, so a read
    clipped on its start side is never fed into the rescue alignment step. -/
theorem c9_start_clip_no_rescue (flankSize : ℤ) (aln : AlnRec) (gpos : ℤ × ℤ) :
    extract_missed_clipped flankSize aln ClipSide.cstart gpos = none := by
  rw [extract_missed_clipped]
  cases h : aln.cigartuples.head? with
  | none => rfl
  | some t =>
    dsimp only
    by_cases hc : 4 ≤ t.1 ∧ t.1 ≤ 5
    · rw [if_pos hc]
    · rw [if_neg hc]
